import Mathlib

/-!
Verification of the network-topology graph builder and reachability
highlighter of the `NodeVisualization` component (ocp-console-plugin).

The embedding mirrors the React Flow variant of the component:

* `classifyType`   — the per-interface role classification (interfaces pass);
* `buildGraph`     — the four construction passes (interfaces, bridge
                     mappings, CUDNs, attachments) producing node and edge
                     lists, in source order;
* `findBracket`    — the `message.match(/\[(.*?)\]/)` capture;
* `attachmentParts`— condition lookup, namespace parsing, sorting, label;
* `traverse` / `getFlowPath` — the two-direction depth-first path
                     highlighter, with the recursion depth bounded by a
                     fuel argument (the fuel is shown to be irrelevant
                     beyond `graphFuel`, which captures termination).

JavaScript truthiness of the optional string fields (`controller`,
`master`, `bridge`, `physicalNetworkName`, `condition.message`,
`match[1]`) is modelled by `strTruthy`: an `Option String` is truthy
iff it is `some` of a non-empty string.  The `data.original` back
reference stored on nodes is presentation-only and is not modelled;
node `role` records the `type` string the code passes to `addNode`
(which selects the node style).  String comparison for the namespace
sort (`Array.prototype.sort` default comparator) is modelled by `chLe`,
lexicographic comparison of the character sequences.
-/

/-- An NMState interface record (the fields the component reads).
`patch` models presence of the `patch` object on an ovs-interface. -/
structure Iface where
  name : String
  type : String
  controller : Option String := none
  master : Option String := none
  patch : Bool := false
  vlanBase : Option String := none
  macVlanBase : Option String := none
deriving Repr, DecidableEq

/-- An OVN bridge mapping (`ovn['bridge-mappings']` entry). -/
structure BridgeMapping where
  localnet : String
  bridge : Option String := none
deriving Repr, DecidableEq

/-- A CUDN status condition. -/
structure Cond where
  type : String
  status : String
  message : Option String := none
deriving Repr, DecidableEq

/-- `spec.network` of a CUDN: both spellings of the localnet physical
network name path, each collapsed to `none` when any level is absent. -/
structure CudnNet where
  localNetPhys : Option String := none
  localnetPhys : Option String := none
deriving Repr, DecidableEq

/-- A ClusterUserDefinedNetwork resource (the fields the component reads). -/
structure Cudn where
  name : String
  net : CudnNet := {}
  conditions : List Cond := []
deriving Repr, DecidableEq

/-- A built graph node: `role` is the `type` string passed to `addNode`;
`namespaces` is the `data.namespaces` payload of attachment nodes. -/
structure GNode where
  id : String
  label : String
  role : String
  namespaces : Option (List String) := none
deriving Repr, DecidableEq

/-- A built graph edge, as produced by the `addEdge` helper. -/
structure GEdge where
  id : String
  source : String
  target : String
  animated : Bool
deriving Repr, DecidableEq

/-- The `addEdge` helper: the id is derived as `<source>-<target>`. -/
def addEdge (source target : String) (animated : Bool) : GEdge :=
  { id := source ++ "-" ++ target, source := source, target := target, animated := animated }

/-- JavaScript truthiness of an optional string value. -/
def strTruthy : Option String → Bool
  | none => false
  | some s => !(s == "")

/-- JavaScript `a || b` on optional string values. -/
def jsOrS (a b : Option String) : Option String := if strTruthy a then a else b

/-- The interface classification of the interfaces pass: `linux-bridge`
and `ovs-bridge` become `bridge`; an `ovs-interface` becomes `bridge`
when some interface of the collection names it as `controller` or
`master` and it has no `patch`, and `logical` otherwise; any other type
is kept as is. -/
def classifyType (interfaces : List Iface) (iface : Iface) : String :=
  if iface.type == "linux-bridge" || iface.type == "ovs-bridge" then "bridge"
  else if iface.type == "ovs-interface" then
    let isController := interfaces.any (fun i =>
      i.controller == some iface.name || i.master == some iface.name)
    if isController && !iface.patch then "bridge" else "logical"
  else iface.type

/-- Node created for one interface. -/
def ifaceNode (interfaces : List Iface) (i : Iface) : GNode :=
  { id := i.name, label := i.name, role := classifyType interfaces i }

/-- The `const master = iface.controller || iface.master; if (master)
addEdge(iface.name, master)` step. -/
def masterEdges (i : Iface) : List GEdge :=
  match jsOrS i.controller i.master with
  | none => []
  | some m => if m = "" then [] else [addEdge i.name m false]

/-- The `vlan['base-iface'] || `mac-vlan`['base-iface']` step:
`if (baseIface) addEdge(baseIface, iface.name)`. -/
def baseEdges (i : Iface) : List GEdge :=
  match jsOrS i.vlanBase i.macVlanBase with
  | none => []
  | some b => if b = "" then [] else [addEdge b i.name false]

/-- Node created for one bridge mapping: id `ovn-<localnet>`. -/
def mappingNode (m : BridgeMapping) : GNode :=
  { id := "ovn-" ++ m.localnet, label := "OVN: " ++ m.localnet, role := "ovn-mapping" }

/-- Edge of the bridge-mapping pass: `if (mapping.bridge)
addEdge(mapping.bridge, ovnNodeId)` — no existence check on the bridge. -/
def mappingEdges (m : BridgeMapping) : List GEdge :=
  match m.bridge with
  | none => []
  | some b => if b = "" then [] else [addEdge b ("ovn-" ++ m.localnet) false]

/-- `spec.network.localNet.physicalNetworkName ||
spec.network.localnet.physicalNetworkName`. -/
def physName (c : Cudn) : Option String := jsOrS c.net.localNetPhys c.net.localnetPhys

/-- Node created for one CUDN: id `cudn-<name>`. -/
def cudnNode (c : Cudn) : GNode :=
  { id := "cudn-" ++ c.name, label := c.name, role := "cudn" }

/-- Edge of the CUDN pass: `if (physicalNetworkName)
addEdge(ovnNodeId, cudnNodeId)` — no existence check on the ovn node. -/
def cudnEdges (c : Cudn) : List GEdge :=
  match physName c with
  | none => []
  | some p => if p = "" then [] else [addEdge ("ovn-" ++ p) ("cudn-" ++ c.name) false]

/-- Capture of `.*?` between `[` and the first following `]`, failing on a
line terminator (the `.` of the regex does not match one). -/
def captureAfterLBrack : List Char → Option (List Char)
  | [] => none
  | c :: rest =>
    if c = ']' then some []
    else if c = '\n' ∨ c = '\r' ∨ c.val = 0x2028 ∨ c.val = 0x2029 then none
    else (captureAfterLBrack rest).map (c :: ·)

/-- First match of the regex `/\[(.*?)\]/` over the characters of the
message: the leftmost `[` from which a capture succeeds wins. -/
def findBracket : List Char → Option (List Char)
  | [] => none
  | c :: rest =>
    if c = '[' then
      match captureAfterLBrack rest with
      | some cap => some cap
      | none => findBracket rest
    else findBracket rest

/-- JavaScript `String.prototype.split(',')` on a character sequence. -/
def splitCommaCh : List Char → List Char → List (List Char)
  | [], acc => [acc.reverse]
  | c :: rest, acc =>
    if c = ',' then acc.reverse :: splitCommaCh rest []
    else splitCommaCh rest (c :: acc)

/-- `String.prototype.trim()`: strip whitespace from both ends. -/
def trimCh (l : List Char) : List Char :=
  ((l.dropWhile Char.isWhitespace).reverse.dropWhile Char.isWhitespace).reverse

/-- Lexicographic comparison of character sequences: the order used by the
default `Array.prototype.sort` comparator on strings. -/
def chLe : List Char → List Char → Bool
  | [], _ => true
  | _ :: _, [] => false
  | a :: as, b :: bs => if a < b then true else if a = b then chLe as bs else false

/-- Lexicographic string order backing the namespace sort. -/
def strLe (a b : String) : Bool := chLe a.data b.data

/-- `match[1].split(',').map(ns => ns.trim()).sort()`. -/
def parseNamespaces (cap : List Char) : List String :=
  List.insertionSort (fun a b => strLe a b = true)
    ((splitCommaCh cap []).map (fun l => (trimCh l).asString))

/-- The attachment label: up to 3 namespace names, with `...` appended
when more exist. -/
def nsLabel (ns : List String) : String :=
  "NS: " ++ (if ns.length > 3 then String.intercalate ", " (ns.take 3) ++ "..."
             else String.intercalate ", " ns)

/-- The predicate of the `NetworkCreated`/`True` condition lookup. -/
def condPred (c : Cond) : Bool := c.type == "NetworkCreated" && c.status == "True"

/-- The attachment pass for one CUDN: find the `NetworkCreated`/`True`
condition, capture the bracketed list from its message, split on commas,
trim, sort; when the capture is non-empty produce the attachment node and
the animated cudn→attachment edge. -/
def attachmentParts (c : Cudn) : List GNode × List GEdge :=
  match c.conditions.find? condPred with
  | none => ([], [])
  | some cond =>
    match cond.message with
    | none => ([], [])
    | some msg =>
      if msg = "" then ([], [])
      else
        match findBracket msg.data with
        | none => ([], [])
        | some cap =>
          if cap = [] then ([], [])
          else
            if (parseNamespaces cap).length > 0 then
              ([{ id := "attachment-" ++ c.name, label := nsLabel (parseNamespaces cap),
                  role := "attachment", namespaces := some (parseNamespaces cap) }],
               [addEdge ("cudn-" ++ c.name) ("attachment-" ++ c.name) true])
            else ([], [])

/-- The built graph: node and edge lists in construction order. -/
structure Graph where
  nodes : List GNode
  edges : List GEdge
deriving Repr, DecidableEq

/-- The four construction passes of the `useEffect` body, in order:
interfaces, bridge mappings, CUDNs, attachments. -/
def buildGraph (interfaces : List Iface) (bms : List BridgeMapping)
    (cudns : List Cudn) : Graph :=
  { nodes := interfaces.map (ifaceNode interfaces)
      ++ bms.map mappingNode
      ++ cudns.map cudnNode
      ++ cudns.flatMap (fun c => (attachmentParts c).1)
  , edges := interfaces.flatMap (fun i => masterEdges i ++ baseEdges i)
      ++ bms.flatMap mappingEdges
      ++ cudns.flatMap cudnEdges
      ++ cudns.flatMap (fun c => (attachmentParts c).2) }

/-! ## The reachability highlighter (`getFlowPath`) -/

/-- The endpoint an edge is matched on: `edge.target` when walking
upstream, `edge.source` when walking downstream. -/
def matchEnd (up : Bool) (e : GEdge) : String := if up then e.target else e.source

/-- The endpoint the traversal continues to. -/
def nextNode (up : Bool) (e : GEdge) : String := if up then e.source else e.target

/-- JavaScript `Set.prototype.add` on an insertion-ordered list. -/
def setAdd (l : List String) (x : String) : List String := if x ∈ l then l else l ++ [x]

/-- The mutable `visited`/`path` pair of `getFlowPath`. -/
structure TSt where
  visited : List String
  path : List String
deriving Repr, DecidableEq

/-- The `connectedEdges.forEach` loop: add each edge id to the path and
recurse (through `rec`) on the next node. -/
def traverseEdges (up : Bool) (rec : String → TSt → TSt) : List GEdge → TSt → TSt
  | [], s => s
  | e :: es, s =>
    traverseEdges up rec es (rec (nextNode up e) { s with path := setAdd s.path e.id })

/-- The recursive `traverse` helper of `getFlowPath`, with the recursion
depth bounded by fuel (shown below to stabilise at `graphFuel`): return
when visited, otherwise mark the node visited and on the path and walk
every connected edge. -/
def traverse (edges : List GEdge) (up : Bool) : Nat → String → TSt → TSt
  | 0, _, s => s
  | f + 1, n, s =>
    if n ∈ s.visited then s
    else
      traverseEdges up (traverse edges up f)
        (edges.filter (fun e => matchEnd up e == n))
        { visited := setAdd s.visited n, path := setAdd s.path n }

/-- Fuel that is never exhausted: one more than the number of node-id
occurrences of the start node and the edge endpoints. -/
def graphFuel (edges : List GEdge) : Nat := 2 * edges.length + 2

/-- `getFlowPath` at an explicit recursion-depth bound: traverse upstream
from the start, clear `visited` (but keep `path`), traverse downstream. -/
def getFlowPathWith (edges : List GEdge) (f : Nat) (startNodeId : String) : List String :=
  let s1 := traverse edges true f startNodeId ⟨[], []⟩
  let s2 := traverse edges false f startNodeId ⟨[], s1.path⟩
  s2.path

/-- The path-highlight helper: the combined node-id/edge-id set (as an
insertion-ordered list) of the upstream and downstream traversals. -/
def getFlowPath (edges : List GEdge) (startNodeId : String) : List String :=
  getFlowPathWith edges (graphFuel edges) startNodeId

/-- One directed step along an edge (the "downstream" direction). -/
def stepTo (edges : List GEdge) (a b : String) : Prop :=
  ∃ e ∈ edges, e.source = a ∧ e.target = b

/-- A directed path in the edge-directed graph. -/
def Reaches (edges : List GEdge) (a b : String) : Prop :=
  Relation.ReflTransGen (stepTo edges) a b

/-! ## Generic helper lemmas -/

/-- String equality follows from equality of the character data. -/
theorem str_eq_of_data {a b : String} (h : a.data = b.data) : a = b :=
  congrArg String.mk h

/-- Two appends with distinct head characters differ. -/
theorem str_append_ne {p q : String} {c d : Char} {cp cq : List Char}
    (hp : p.data = c :: cp) (hq : q.data = d :: cq) (hne : c ≠ d) (s t : String) :
    p ++ s ≠ q ++ t := by
  intro h
  have h2 := congrArg String.data h
  rw [String.data_append, String.data_append, hp, hq] at h2
  exact hne (List.head_eq_of_cons_eq h2)

/-- Left cancellation for string append. -/
theorem str_append_left_cancel {p s t : String} (h : p ++ s = p ++ t) : s = t := by
  have h2 := congrArg String.data h
  rw [String.data_append, String.data_append] at h2
  exact str_eq_of_data (List.append_cancel_left h2)

theorem ovn_ne_attachment (s t : String) : ("ovn-" ++ s) ≠ ("attachment-" ++ t) :=
  str_append_ne rfl rfl (by decide) s t

theorem cudn_ne_attachment (s t : String) : ("cudn-" ++ s) ≠ ("attachment-" ++ t) :=
  str_append_ne rfl rfl (by decide) s t

theorem ovn_ne_cudn (s t : String) : ("ovn-" ++ s) ≠ ("cudn-" ++ t) :=
  str_append_ne rfl rfl (by decide) s t

/-! ## Inversion lemmas for the builder passes -/

theorem mem_masterEdges {i : Iface} {e : GEdge} (h : e ∈ masterEdges i) :
    ∃ m, e = addEdge i.name m false := by
  rcases hj : jsOrS i.controller i.master with _ | m
  · simp [masterEdges, hj] at h
  · by_cases hm : m = ""
    · simp [masterEdges, hj, hm] at h
    · simp only [masterEdges, hj, if_neg hm] at h
      exact ⟨m, List.mem_singleton.mp h⟩

theorem mem_baseEdges {i : Iface} {e : GEdge} (h : e ∈ baseEdges i) :
    ∃ b, e = addEdge b i.name false := by
  rcases hj : jsOrS i.vlanBase i.macVlanBase with _ | b
  · simp [baseEdges, hj] at h
  · by_cases hb : b = ""
    · simp [baseEdges, hj, hb] at h
    · simp only [baseEdges, hj, if_neg hb] at h
      exact ⟨b, List.mem_singleton.mp h⟩

theorem mem_mappingEdges {m : BridgeMapping} {e : GEdge} (h : e ∈ mappingEdges m) :
    ∃ b, e = addEdge b ("ovn-" ++ m.localnet) false := by
  rcases hj : m.bridge with _ | b
  · simp [mappingEdges, hj] at h
  · by_cases hb : b = ""
    · simp [mappingEdges, hj, hb] at h
    · simp only [mappingEdges, hj, if_neg hb] at h
      exact ⟨b, List.mem_singleton.mp h⟩

theorem mem_cudnEdges {c : Cudn} {e : GEdge} (h : e ∈ cudnEdges c) :
    ∃ p, e = addEdge ("ovn-" ++ p) ("cudn-" ++ c.name) false := by
  rcases hj : physName c with _ | p
  · simp [cudnEdges, hj] at h
  · by_cases hp : p = ""
    · simp [cudnEdges, hj, hp] at h
    · simp only [cudnEdges, hj, if_neg hp] at h
      exact ⟨p, List.mem_singleton.mp h⟩

/-- Full case analysis of the attachment pass for one CUDN. -/
theorem attachmentParts_eq (c : Cudn) :
    attachmentParts c = ([], [])
    ∨ ∃ cond msg cap, c.conditions.find? condPred = some cond ∧ cond.message = some msg
        ∧ msg ≠ "" ∧ findBracket msg.data = some cap ∧ cap ≠ []
        ∧ (parseNamespaces cap).length > 0
        ∧ attachmentParts c =
            ([{ id := "attachment-" ++ c.name, label := nsLabel (parseNamespaces cap),
                role := "attachment", namespaces := some (parseNamespaces cap) }],
             [addEdge ("cudn-" ++ c.name) ("attachment-" ++ c.name) true]) := by
  rcases hf : c.conditions.find? condPred with _ | cond
  · left; simp [attachmentParts, hf]
  · rcases hm : cond.message with _ | msg
    · left; simp [attachmentParts, hf, hm]
    · by_cases hmsg : msg = ""
      · left; simp [attachmentParts, hf, hm, hmsg]
      · rcases hb : findBracket msg.data with _ | cap
        · left; simp [attachmentParts, hf, hm, hmsg, hb]
        · by_cases hcap : cap = []
          · left; simp [attachmentParts, hf, hm, hmsg, hb, hcap]
          · by_cases hlen : (parseNamespaces cap).length > 0
            · right
              refine ⟨cond, msg, cap, rfl, hm, hmsg, hb, hcap, hlen, ?_⟩
              simp [attachmentParts, hf, hm, hmsg, hb, hcap, hlen]
            · left; simp [attachmentParts, hf, hm, hmsg, hb, hcap, hlen]

theorem mem_attachEdges {c : Cudn} {e : GEdge} (h : e ∈ (attachmentParts c).2) :
    e = addEdge ("cudn-" ++ c.name) ("attachment-" ++ c.name) true := by
  rcases attachmentParts_eq c with heq | ⟨_, _, _, _, _, _, _, _, _, heq⟩ <;> rw [heq] at h
  · simp at h
  · exact List.mem_singleton.mp h

theorem mem_attachNodes {c : Cudn} {n : GNode} (h : n ∈ (attachmentParts c).1) :
    n.id = "attachment-" ++ c.name := by
  rcases attachmentParts_eq c with heq | ⟨_, _, _, _, _, _, _, _, _, heq⟩ <;> rw [heq] at h
  · simp at h
  · rw [List.mem_singleton.mp h]

/-- Membership in the built edge list, split by pass. -/
theorem mem_buildGraph_edges {ifs : List Iface} {bms : List BridgeMapping}
    {cudns : List Cudn} {e : GEdge} :
    e ∈ (buildGraph ifs bms cudns).edges ↔
      (∃ i ∈ ifs, e ∈ masterEdges i ∨ e ∈ baseEdges i)
      ∨ (∃ m ∈ bms, e ∈ mappingEdges m)
      ∨ (∃ c ∈ cudns, e ∈ cudnEdges c)
      ∨ (∃ c ∈ cudns, e ∈ (attachmentParts c).2) := by
  simp [buildGraph, List.mem_append, List.mem_flatMap, or_assoc]

/-- Membership in the built node list, split by pass. -/
theorem mem_buildGraph_nodes {ifs : List Iface} {bms : List BridgeMapping}
    {cudns : List Cudn} {n : GNode} :
    n ∈ (buildGraph ifs bms cudns).nodes ↔
      (∃ i ∈ ifs, n = ifaceNode ifs i)
      ∨ (∃ m ∈ bms, n = mappingNode m)
      ∨ (∃ c ∈ cudns, n = cudnNode c)
      ∨ (∃ c ∈ cudns, n ∈ (attachmentParts c).1) := by
  simp [buildGraph, List.mem_append, List.mem_flatMap, or_assoc, eq_comm]

/-! ## C1 — dangling edges -/

/-- C1 (counterexample): the claim "every edge's source and target resolve
to a node present in the built node set; a bridge mapping whose `bridge`
matches no interface yields no edge" is false: with no interfaces and the
single mapping `{localnet: physnet1, bridge: br0}`, the builder still
creates the edge `br0 → ovn-physnet1`, whose source `br0` is not a node. -/
theorem claim_C1_counterexample :
    (addEdge "br0" "ovn-physnet1" false
        ∈ (buildGraph [] [{ localnet := "physnet1", bridge := some "br0" }] []).edges)
    ∧ ¬ (∀ e ∈ (buildGraph [] [{ localnet := "physnet1", bridge := some "br0" }] []).edges,
        e.source ∈ (buildGraph [] [{ localnet := "physnet1", bridge := some "br0" }] []).nodes.map GNode.id
        ∧ e.target ∈ (buildGraph [] [{ localnet := "physnet1", bridge := some "br0" }] []).nodes.map GNode.id) := by
  constructor
  · decide
  · decide

/-- C1 (amended): edges are created from the reference fields alone,
without any node-existence check — a mapping with a truthy `bridge`
always yields the edge `bridge → ovn-<localnet>`, and a CUDN with a
truthy physical network name always yields the edge
`ovn-<name> → cudn-<name>`, whether or not the referenced node exists;
no edge of a pass is produced when its reference field is falsy, and
construction is total (no error is raised). -/
theorem claim_C1_amended_thm (ifs : List Iface) (bms : List BridgeMapping)
    (cudns : List Cudn) :
    (∀ bm ∈ bms, ∀ b, bm.bridge = some b → b ≠ "" →
        addEdge b ("ovn-" ++ bm.localnet) false ∈ (buildGraph ifs bms cudns).edges)
    ∧ (∀ c ∈ cudns, ∀ p, physName c = some p → p ≠ "" →
        addEdge ("ovn-" ++ p) ("cudn-" ++ c.name) false ∈ (buildGraph ifs bms cudns).edges)
    ∧ (∀ bm ∈ bms, strTruthy bm.bridge = false → mappingEdges bm = []) := by
  refine ⟨?_, ?_, ?_⟩
  · intro bm hbm b hb hb0
    refine mem_buildGraph_edges.mpr (Or.inr (Or.inl ⟨bm, hbm, ?_⟩))
    simp [mappingEdges, hb, hb0]
  · intro c hc p hp hp0
    refine mem_buildGraph_edges.mpr (Or.inr (Or.inr (Or.inl ⟨c, hc, ?_⟩)))
    simp [cudnEdges, hp, hp0]
  · intro bm _ hb
    rcases hj : bm.bridge with _ | b
    · simp [mappingEdges, hj]
    · rw [hj] at hb
      simp only [strTruthy] at hb
      simp only [Bool.not_eq_false'] at hb
      simp [mappingEdges, hj, show b = "" from by simpa using hb]

/-- Witness for C1 (amended) at a concrete input. -/
theorem claim_C1_witness :
    addEdge "br0" "ovn-physnet1" false
      ∈ (buildGraph [] [{ localnet := "physnet1", bridge := some "br0" }]
          [{ name := "net-a", net := { localNetPhys := some "physnet1" }, conditions := [] }]).edges :=
  (claim_C1_amended_thm [] [{ localnet := "physnet1", bridge := some "br0" }]
      [{ name := "net-a", net := { localNetPhys := some "physnet1" }, conditions := [] }]).1
    { localnet := "physnet1", bridge := some "br0" } (by decide) "br0" rfl (by decide)

/-! ## C2 — ovs-interface classification -/

/-- C2 (counterexample): an ovs-interface that names itself as its own
`controller` is classified `bridge` by the code although no other
interface names it, contradicting the claim's "some other interface". -/
theorem claim_C2_counterexample :
    classifyType [{ name := "a", type := "ovs-interface", controller := some "a" }]
        { name := "a", type := "ovs-interface", controller := some "a" } = "bridge"
    ∧ ¬ (∃ j ∈ ([{ name := "a", type := "ovs-interface", controller := some "a" }] : List Iface),
          j ≠ { name := "a", type := "ovs-interface", controller := some "a" }
          ∧ (j.controller = some "a" ∨ j.master = some "a")) := by
  constructor
  · decide
  · decide

/-- C2 (amended): for an interface of type ovs-interface in the
collection, the classifier assigns `bridge` iff some interface of the
collection — possibly the interface itself — names it as `controller` or
`master` and it has no `patch` field; otherwise it assigns `logical`.
In particular an ovs-interface with a `patch` field is never `bridge`. -/
theorem claim_C2_amended_thm (interfaces : List Iface) (i : Iface)
    (hi : i ∈ interfaces) (h : i.type = "ovs-interface") :
    (classifyType interfaces i = "bridge" ↔
      ((∃ j ∈ interfaces, j.controller = some i.name ∨ j.master = some i.name)
        ∧ i.patch = false))
    ∧ (classifyType interfaces i = "bridge" ∨ classifyType interfaces i = "logical") := by
  have hred : classifyType interfaces i =
      (if (interfaces.any (fun j =>
            j.controller == some i.name || j.master == some i.name)) && !i.patch
       then "bridge" else "logical") := by
    simp [classifyType, h]
  constructor
  · rw [hred]
    by_cases hb : (interfaces.any (fun j =>
        j.controller == some i.name || j.master == some i.name)) && !i.patch
    · rw [if_pos hb]
      simp only [Bool.and_eq_true, List.any_eq_true, Bool.or_eq_true, beq_iff_eq,
        Bool.not_eq_true'] at hb
      exact ⟨fun _ => hb, fun _ => rfl⟩
    · rw [if_neg hb]
      simp only [Bool.and_eq_true, List.any_eq_true, Bool.or_eq_true, beq_iff_eq,
        Bool.not_eq_true'] at hb
      constructor
      · intro hcontra; exact absurd hcontra (by decide)
      · intro hrhs; exact absurd hrhs hb
  · rw [hred]
    by_cases hb : (interfaces.any (fun j =>
        j.controller == some i.name || j.master == some i.name)) && !i.patch
    · rw [if_pos hb]; exact Or.inl rfl
    · rw [if_neg hb]; exact Or.inr rfl

/-- Witness for C2 (amended): `eth0` controlled `ovs0` makes `ovs0` a bridge. -/
theorem claim_C2_witness :
    (classifyType
        [{ name := "eth0", type := "ethernet", controller := some "ovs0" },
         { name := "ovs0", type := "ovs-interface" }]
        { name := "ovs0", type := "ovs-interface" } = "bridge" ↔
      ((∃ j ∈ ([{ name := "eth0", type := "ethernet", controller := some "ovs0" },
                { name := "ovs0", type := "ovs-interface" }] : List Iface),
          j.controller = some "ovs0" ∨ j.master = some "ovs0")
        ∧ false = false))
    ∧ (classifyType
        [{ name := "eth0", type := "ethernet", controller := some "ovs0" },
         { name := "ovs0", type := "ovs-interface" }]
        { name := "ovs0", type := "ovs-interface" } = "bridge" ∨
       classifyType
        [{ name := "eth0", type := "ethernet", controller := some "ovs0" },
         { name := "ovs0", type := "ovs-interface" }]
        { name := "ovs0", type := "ovs-interface" } = "logical") :=
  claim_C2_amended_thm
    [{ name := "eth0", type := "ethernet", controller := some "ovs0" },
     { name := "ovs0", type := "ovs-interface" }]
    { name := "ovs0", type := "ovs-interface" } (by decide) rfl

/-! ## C4 — edge ids -/

/-- C4 (counterexample): two identical bridge mappings produce two edges
with the same id — identical source/target pairs are not collapsed. -/
theorem claim_C4_counterexample :
    ¬ ((buildGraph []
          [{ localnet := "p", bridge := some "br0" }, { localnet := "p", bridge := some "br0" }]
          []).edges.map GEdge.id).Nodup := by
  decide

/-- C4 (amended): every built edge's id equals `<source>-<target>`;
construction appends edges without deduplication, so identical
source/target pairs yield repeated edges with the same id rather than
collapsing to one. -/
theorem claim_C4_amended_thm (ifs : List Iface) (bms : List BridgeMapping)
    (cudns : List Cudn) :
    ∀ e ∈ (buildGraph ifs bms cudns).edges, e.id = e.source ++ "-" ++ e.target := by
  intro e he
  rcases mem_buildGraph_edges.mp he with ⟨i, _, hm | hb⟩ | ⟨m, _, hm⟩ | ⟨c, _, hc⟩ | ⟨c, _, hc⟩
  · obtain ⟨m, rfl⟩ := mem_masterEdges hm; rfl
  · obtain ⟨b, rfl⟩ := mem_baseEdges hb; rfl
  · obtain ⟨b, rfl⟩ := mem_mappingEdges hm; rfl
  · obtain ⟨p, rfl⟩ := mem_cudnEdges hc; rfl
  · rw [mem_attachEdges hc]; rfl

/-- Witness for C4 (amended) at a concrete graph. -/
theorem claim_C4_witness :
    (addEdge "eth0" "br0" false).id = "eth0" ++ "-" ++ "br0" :=
  claim_C4_amended_thm
    [{ name := "eth0", type := "ethernet", controller := some "br0" }] [] []
    (addEdge "eth0" "br0" false) (by decide)

/-! ## C9 — controller precedence -/

/-- C9: when both `controller` and `master` are present and non-empty, the
interfaces pass creates exactly one containment edge, from the interface
name to the `controller` value; the `master` value is not used. -/
theorem claim_C9_thm (ifs : List Iface) (bms : List BridgeMapping) (cudns : List Cudn)
    (i : Iface) (c m : String) (hi : i ∈ ifs)
    (hc : i.controller = some c) (hc0 : c ≠ "") (hm : i.master = some m) (hm0 : m ≠ "") :
    masterEdges i = [addEdge i.name c false]
    ∧ addEdge i.name c false ∈ (buildGraph ifs bms cudns).edges
    ∧ (m ≠ c → addEdge i.name m false ∉ masterEdges i) := by
  have h1 : masterEdges i = [addEdge i.name c false] := by
    simp [masterEdges, jsOrS, strTruthy, hc, hc0]
  refine ⟨h1, ?_, ?_⟩
  · exact mem_buildGraph_edges.mpr
      (Or.inl ⟨i, hi, Or.inl (h1 ▸ List.mem_singleton.mpr rfl)⟩)
  · intro hmc hmem
    rw [h1, List.mem_singleton] at hmem
    exact hmc (congrArg GEdge.target hmem)

/-- Witness for C9 at a concrete interface. -/
theorem claim_C9_witness :
    masterEdges { name := "eth0", type := "ethernet",
                  controller := some "br0", master := some "bond0" }
      = [addEdge "eth0" "br0" false]
    ∧ addEdge "eth0" "br0" false ∈ (buildGraph
        [{ name := "eth0", type := "ethernet", controller := some "br0", master := some "bond0" }]
        [] []).edges
    ∧ ("bond0" ≠ "br0" → addEdge "eth0" "bond0" false ∉ masterEdges
          { name := "eth0", type := "ethernet", controller := some "br0", master := some "bond0" }) :=
  claim_C9_thm
    [{ name := "eth0", type := "ethernet", controller := some "br0", master := some "bond0" }]
    [] []
    { name := "eth0", type := "ethernet", controller := some "br0", master := some "bond0" }
    "br0" "bond0" (by decide) rfl (by decide) rfl (by decide)

/-! ## C10 — physical network name spellings -/

/-- C10: the physical network name resolves from the camel-case
`localNet` path, falling back to the all-lowercase `localnet` spelling;
a truthy camel-case value takes precedence, and a CUDN carrying only the
lowercase spelling still receives its `ovn → cudn` edge. -/
theorem claim_C10_thm (ifs : List Iface) (bms : List BridgeMapping) (cudns : List Cudn)
    (c : Cudn) (hc : c ∈ cudns) :
    (∀ p, c.net.localNetPhys = some p → p ≠ "" →
        physName c = some p
        ∧ addEdge ("ovn-" ++ p) ("cudn-" ++ c.name) false ∈ (buildGraph ifs bms cudns).edges)
    ∧ (∀ q, c.net.localNetPhys = none → c.net.localnetPhys = some q → q ≠ "" →
        physName c = some q
        ∧ addEdge ("ovn-" ++ q) ("cudn-" ++ c.name) false ∈ (buildGraph ifs bms cudns).edges) := by
  constructor
  · intro p hp hp0
    have hphys : physName c = some p := by
      simp [physName, jsOrS, strTruthy, hp, hp0]
    refine ⟨hphys, mem_buildGraph_edges.mpr (Or.inr (Or.inr (Or.inl ⟨c, hc, ?_⟩)))⟩
    simp [cudnEdges, hphys, hp0]
  · intro q hn hq hq0
    have hphys : physName c = some q := by
      simp [physName, jsOrS, strTruthy, hn, hq]
    refine ⟨hphys, mem_buildGraph_edges.mpr (Or.inr (Or.inr (Or.inl ⟨c, hc, ?_⟩)))⟩
    simp [cudnEdges, hphys, hq0]

/-- Witness for C10: a CUDN with only the lowercase spelling. -/
theorem claim_C10_witness :
    (∀ p, ({ name := "net-a", net := { localnetPhys := some "physnet1" } } : Cudn).net.localNetPhys = some p → p ≠ "" →
        physName { name := "net-a", net := { localnetPhys := some "physnet1" } } = some p
        ∧ addEdge ("ovn-" ++ p) ("cudn-" ++ "net-a") false ∈ (buildGraph [] []
            [{ name := "net-a", net := { localnetPhys := some "physnet1" } }]).edges)
    ∧ (∀ q, ({ name := "net-a", net := { localnetPhys := some "physnet1" } } : Cudn).net.localNetPhys = none →
        ({ name := "net-a", net := { localnetPhys := some "physnet1" } } : Cudn).net.localnetPhys = some q → q ≠ "" →
        physName { name := "net-a", net := { localnetPhys := some "physnet1" } } = some q
        ∧ addEdge ("ovn-" ++ q) ("cudn-" ++ "net-a") false ∈ (buildGraph [] []
            [{ name := "net-a", net := { localnetPhys := some "physnet1" } }]).edges) :=
  claim_C10_thm [] [] [{ name := "net-a", net := { localnetPhys := some "physnet1" } }]
    { name := "net-a", net := { localnetPhys := some "physnet1" } } (by decide)

/-! ## Order facts about the namespace sort -/

theorem chLe_total (a : List Char) : ∀ b, chLe a b = true ∨ chLe b a = true := by
  induction a with
  | nil => intro b; exact Or.inl rfl
  | cons x as ih =>
    intro b
    cases b with
    | nil => exact Or.inr rfl
    | cons y bs =>
      rcases lt_trichotomy x y with hxy | hxy | hxy
      · exact Or.inl (by simp [chLe, hxy])
      · subst hxy
        rcases ih bs with h | h
        · exact Or.inl (by simp [chLe, h])
        · exact Or.inr (by simp [chLe, h])
      · exact Or.inr (by simp [chLe, hxy])

theorem chLe_trans (a : List Char) :
    ∀ b c, chLe a b = true → chLe b c = true → chLe a c = true := by
  induction a with
  | nil => intro b c _ _; rfl
  | cons x as ih =>
    intro b c h1 h2
    cases b with
    | nil => simp [chLe] at h1
    | cons y bs =>
      cases c with
      | nil => simp [chLe] at h2
      | cons z cs =>
        have h1' : x < y ∨ (x = y ∧ chLe as bs = true) := by
          by_cases hxy : x < y
          · exact Or.inl hxy
          · by_cases hxey : x = y
            · simp only [chLe, if_neg hxy, if_pos hxey] at h1
              exact Or.inr ⟨hxey, h1⟩
            · simp [chLe, hxy, hxey] at h1
        have h2' : y < z ∨ (y = z ∧ chLe bs cs = true) := by
          by_cases hyz : y < z
          · exact Or.inl hyz
          · by_cases hyez : y = z
            · simp only [chLe, if_neg hyz, if_pos hyez] at h2
              exact Or.inr ⟨hyez, h2⟩
            · simp [chLe, hyz, hyez] at h2
        rcases h1' with hxy | ⟨rfl, hab⟩
        · rcases h2' with hyz | ⟨rfl, _⟩
          · simp [chLe, lt_trans hxy hyz]
          · simp [chLe, hxy]
        · rcases h2' with hyz | ⟨rfl, hbc⟩
          · simp [chLe, hyz]
          · by_cases hxx : x < x
            · exact absurd hxx (lt_irrefl x)
            · simp [chLe, hxx, ih bs cs hab hbc]

theorem strLe_isTotal : ∀ a b : String, strLe a b = true ∨ strLe b a = true :=
  fun a b => chLe_total a.data b.data

theorem strLe_isTrans :
    ∀ a b c : String, strLe a b = true → strLe b c = true → strLe a c = true :=
  fun a b c => chLe_trans a.data b.data c.data

instance instIsTotalStrLe : IsTotal String (fun a b => strLe a b = true) := ⟨strLe_isTotal⟩

instance instIsTransStrLe : IsTrans String (fun a b => strLe a b = true) := ⟨strLe_isTrans⟩

/-- The namespace list produced by the attachment pass is sorted. -/
theorem parseNamespaces_sorted (cap : List Char) :
    List.Sorted (fun a b => strLe a b = true) (parseNamespaces cap) :=
  List.sorted_insertionSort _ _

/-- The namespace list is a permutation of the split/trimmed fragments. -/
theorem parseNamespaces_perm (cap : List Char) :
    (parseNamespaces cap).Perm
      ((splitCommaCh cap []).map (fun l => (trimCh l).asString)) :=
  List.perm_insertionSort _ _

/-- `split(',')` never yields an empty array. -/
theorem splitCommaCh_ne_nil : ∀ l acc, splitCommaCh l acc ≠ [] := by
  intro l
  induction l with
  | nil => intro acc; simp [splitCommaCh]
  | cons c rest ih =>
    intro acc
    by_cases hc : c = ','
    · simp [splitCommaCh, hc]
    · simp only [splitCommaCh, if_neg hc]
      exact ih (c :: acc)

/-- Hence the parsed namespace list is never empty. -/
theorem parseNamespaces_ne_nil (cap : List Char) : parseNamespaces cap ≠ [] := by
  intro h
  have hperm := parseNamespaces_perm cap
  rw [h] at hperm
  have hmap := hperm.symm.eq_nil
  exact splitCommaCh_ne_nil cap [] (List.map_eq_nil_iff.mp hmap)

/-! ## Locating the attachment node and edge in the built graph -/

theorem iface_nodes_filter_nil (ifs : List Iface) (x : String)
    (h : ∀ i ∈ ifs, i.name ≠ x) :
    (ifs.map (ifaceNode ifs)).filter (fun n => n.id == x) = [] := by
  apply List.filter_eq_nil_iff.mpr
  intro n hn
  obtain ⟨i, hi, rfl⟩ := List.mem_map.mp hn
  simp only [ifaceNode, beq_iff_eq]
  exact h i hi

theorem mapping_nodes_filter_nil (bms : List BridgeMapping) (s : String) :
    (bms.map mappingNode).filter (fun n => n.id == "attachment-" ++ s) = [] := by
  apply List.filter_eq_nil_iff.mpr
  intro n hn
  obtain ⟨m, _, rfl⟩ := List.mem_map.mp hn
  simp only [mappingNode, beq_iff_eq]
  exact ovn_ne_attachment m.localnet s

theorem cudn_nodes_filter_nil (cudns : List Cudn) (s : String) :
    (cudns.map cudnNode).filter (fun n => n.id == "attachment-" ++ s) = [] := by
  apply List.filter_eq_nil_iff.mpr
  intro n hn
  obtain ⟨c, _, rfl⟩ := List.mem_map.mp hn
  simp only [cudnNode, beq_iff_eq]
  exact cudn_ne_attachment c.name s

theorem attach_nodes_filter (cudns : List Cudn) (c : Cudn) (hmem : c ∈ cudns)
    (hnd : (cudns.map Cudn.name).Nodup) :
    (cudns.flatMap (fun c2 => (attachmentParts c2).1)).filter
        (fun n => n.id == "attachment-" ++ c.name)
      = ((attachmentParts c).1).filter (fun n => n.id == "attachment-" ++ c.name) := by
  induction cudns with
  | nil => exact absurd hmem (by simp)
  | cons c0 rest ih =>
    rw [List.flatMap_cons, List.filter_append]
    rw [List.map_cons] at hnd
    have hnd0 := List.nodup_cons.mp hnd
    rcases List.mem_cons.mp hmem with rfl | hmem2
    · have hrest : (rest.flatMap (fun c2 => (attachmentParts c2).1)).filter
          (fun n => n.id == "attachment-" ++ c.name) = [] := by
        apply List.filter_eq_nil_iff.mpr
        intro n hn
        obtain ⟨c2, hc2, hn2⟩ := List.mem_flatMap.mp hn
        have hname : c2.name ≠ c.name := fun heq =>
          hnd0.1 (heq ▸ List.mem_map_of_mem Cudn.name hc2)
        simp only [mem_attachNodes hn2, beq_iff_eq]
        intro hcontr
        exact hname (str_append_left_cancel hcontr)
      rw [hrest, List.append_nil]
    · have h0 : ((attachmentParts c0).1).filter (fun n => n.id == "attachment-" ++ c.name) = [] := by
        apply List.filter_eq_nil_iff.mpr
        intro n hn
        have hname : c0.name ≠ c.name := fun heq =>
          hnd0.1 (heq ▸ List.mem_map_of_mem Cudn.name hmem2)
        simp only [mem_attachNodes hn, beq_iff_eq]
        intro hcontr
        exact hname (str_append_left_cancel hcontr)
      rw [h0, List.nil_append]
      exact ih hmem2 hnd0.2

theorem iface_edges_filter_nil (ifs : List Iface) (nm : String)
    (hni : ∀ i ∈ ifs, i.name ≠ "attachment-" ++ nm)
    (hcn : ∀ i ∈ ifs, i.name ≠ "cudn-" ++ nm) :
    (ifs.flatMap (fun i => masterEdges i ++ baseEdges i)).filter
        (fun e => e.source == "cudn-" ++ nm && e.target == "attachment-" ++ nm) = [] := by
  apply List.filter_eq_nil_iff.mpr
  intro e he
  obtain ⟨i, hi, hei⟩ := List.mem_flatMap.mp he
  rcases List.mem_append.mp hei with hmE | hbE
  · obtain ⟨m, rfl⟩ := mem_masterEdges hmE
    simp only [addEdge, Bool.and_eq_true, beq_iff_eq, not_and]
    intro h1
    exact absurd h1 (hcn i hi)
  · obtain ⟨b, rfl⟩ := mem_baseEdges hbE
    simp only [addEdge, Bool.and_eq_true, beq_iff_eq, not_and]
    intro _ h2
    exact absurd h2 (hni i hi)

theorem mapping_edges_filter_nil (bms : List BridgeMapping) (nm : String) :
    (bms.flatMap mappingEdges).filter
        (fun e => e.source == "cudn-" ++ nm && e.target == "attachment-" ++ nm) = [] := by
  apply List.filter_eq_nil_iff.mpr
  intro e he
  obtain ⟨m, _, hem⟩ := List.mem_flatMap.mp he
  obtain ⟨b, rfl⟩ := mem_mappingEdges hem
  simp only [addEdge, Bool.and_eq_true, beq_iff_eq, not_and]
  intro _ h2
  exact absurd h2 (ovn_ne_attachment m.localnet nm)

theorem cudn_edges_filter_nil (cudns : List Cudn) (nm : String) :
    (cudns.flatMap cudnEdges).filter
        (fun e => e.source == "cudn-" ++ nm && e.target == "attachment-" ++ nm) = [] := by
  apply List.filter_eq_nil_iff.mpr
  intro e he
  obtain ⟨c2, _, hec⟩ := List.mem_flatMap.mp he
  obtain ⟨p, rfl⟩ := mem_cudnEdges hec
  simp only [addEdge, Bool.and_eq_true, beq_iff_eq, not_and]
  intro h1
  exact absurd h1 (ovn_ne_cudn p nm)

theorem attach_edges_filter (cudns : List Cudn) (c : Cudn) (hmem : c ∈ cudns)
    (hnd : (cudns.map Cudn.name).Nodup) :
    (cudns.flatMap (fun c2 => (attachmentParts c2).2)).filter
        (fun e => e.source == "cudn-" ++ c.name && e.target == "attachment-" ++ c.name)
      = ((attachmentParts c).2).filter
          (fun e => e.source == "cudn-" ++ c.name && e.target == "attachment-" ++ c.name) := by
  induction cudns with
  | nil => exact absurd hmem (by simp)
  | cons c0 rest ih =>
    rw [List.flatMap_cons, List.filter_append]
    rw [List.map_cons] at hnd
    have hnd0 := List.nodup_cons.mp hnd
    rcases List.mem_cons.mp hmem with rfl | hmem2
    · have hrest : (rest.flatMap (fun c2 => (attachmentParts c2).2)).filter
          (fun e => e.source == "cudn-" ++ c.name && e.target == "attachment-" ++ c.name) = [] := by
        apply List.filter_eq_nil_iff.mpr
        intro e he
        obtain ⟨c2, hc2, he2⟩ := List.mem_flatMap.mp he
        have hname : c2.name ≠ c.name := fun heq =>
          hnd0.1 (heq ▸ List.mem_map_of_mem Cudn.name hc2)
        rw [mem_attachEdges he2]
        simp only [addEdge, Bool.and_eq_true, beq_iff_eq, not_and]
        intro h1
        exact absurd (str_append_left_cancel h1) hname
      rw [hrest, List.append_nil]
    · have h0 : ((attachmentParts c0).2).filter
          (fun e => e.source == "cudn-" ++ c.name && e.target == "attachment-" ++ c.name) = [] := by
        apply List.filter_eq_nil_iff.mpr
        intro e he
        have hname : c0.name ≠ c.name := fun heq =>
          hnd0.1 (heq ▸ List.mem_map_of_mem Cudn.name hmem2)
        rw [mem_attachEdges he]
        simp only [addEdge, Bool.and_eq_true, beq_iff_eq, not_and]
        intro h1
        exact absurd (str_append_left_cancel h1) hname
      rw [h0, List.nil_append]
      exact ih hmem2 hnd0.2

/-! ## C6 — attachment node and emphasized edge -/

/-- C6: for a CUDN whose `NetworkCreated`/`True` condition message carries
a non-empty bracketed namespace list (given distinct CUDN names and no
interface shadowing the synthesized ids), exactly one attachment node
`attachment-<name>` is created, its namespace list is the
lexicographically sorted permutation of the split/trimmed fragments, its
label lists all names up to 3 and the first 3 plus `...` beyond, exactly
one edge `cudn-<name> → attachment-<name>` exists and it is animated, and
cudn→attachment edges are the only animated edges of the build. -/
theorem claim_C6_thm (ifs : List Iface) (bms : List BridgeMapping) (cudns : List Cudn)
    (c : Cudn) (cond : Cond) (msg : String) (cap : List Char)
    (hmem : c ∈ cudns)
    (hnd : (cudns.map Cudn.name).Nodup)
    (hni : ∀ i ∈ ifs, i.name ≠ "attachment-" ++ c.name)
    (hcn : ∀ i ∈ ifs, i.name ≠ "cudn-" ++ c.name)
    (hfind : c.conditions.find? condPred = some cond)
    (hmsg : cond.message = some msg)
    (hcap : findBracket msg.data = some cap)
    (hne : cap ≠ []) :
    (buildGraph ifs bms cudns).nodes.filter (fun n => n.id == "attachment-" ++ c.name)
      = [{ id := "attachment-" ++ c.name, label := nsLabel (parseNamespaces cap),
           role := "attachment", namespaces := some (parseNamespaces cap) }]
    ∧ List.Sorted (fun a b => strLe a b = true) (parseNamespaces cap)
    ∧ (parseNamespaces cap).Perm
        ((splitCommaCh cap []).map (fun l => (trimCh l).asString))
    ∧ nsLabel (parseNamespaces cap) =
        (if (parseNamespaces cap).length > 3
         then "NS: " ++ (String.intercalate ", " ((parseNamespaces cap).take 3) ++ "...")
         else "NS: " ++ String.intercalate ", " (parseNamespaces cap))
    ∧ (buildGraph ifs bms cudns).edges.filter
        (fun e => e.source == "cudn-" ++ c.name && e.target == "attachment-" ++ c.name)
      = [addEdge ("cudn-" ++ c.name) ("attachment-" ++ c.name) true]
    ∧ (addEdge ("cudn-" ++ c.name) ("attachment-" ++ c.name) true).animated = true
    ∧ (∀ e ∈ (buildGraph ifs bms cudns).edges, e.animated = true →
        ∃ c2 ∈ cudns, e.source = "cudn-" ++ c2.name ∧ e.target = "attachment-" ++ c2.name) := by
  have hmsg0 : msg ≠ "" := by
    intro h0
    rw [h0] at hcap
    have hnone : findBracket ("" : String).data = none := rfl
    rw [hnone] at hcap
    exact Option.noConfusion hcap
  have hlen : (parseNamespaces cap).length > 0 :=
    List.length_pos.mpr (parseNamespaces_ne_nil cap)
  have hparts : attachmentParts c =
      ([{ id := "attachment-" ++ c.name, label := nsLabel (parseNamespaces cap),
          role := "attachment", namespaces := some (parseNamespaces cap) }],
       [addEdge ("cudn-" ++ c.name) ("attachment-" ++ c.name) true]) := by
    simp only [attachmentParts, hfind, hmsg, if_neg hmsg0, hcap, if_neg hne, if_pos hlen]
  refine ⟨?_, parseNamespaces_sorted cap, parseNamespaces_perm cap, ?_, ?_, rfl, ?_⟩
  · show ((ifs.map (ifaceNode ifs) ++ bms.map mappingNode ++ cudns.map cudnNode
        ++ cudns.flatMap (fun c2 => (attachmentParts c2).1)).filter
          (fun n => n.id == "attachment-" ++ c.name)) = _
    rw [List.filter_append, List.filter_append, List.filter_append,
      iface_nodes_filter_nil ifs _ hni, mapping_nodes_filter_nil bms c.name,
      cudn_nodes_filter_nil cudns c.name, attach_nodes_filter cudns c hmem hnd, hparts]
    simp
  · unfold nsLabel
    by_cases h3 : (parseNamespaces cap).length > 3
    · rw [if_pos h3, if_pos h3]
    · rw [if_neg h3, if_neg h3]
  · show ((ifs.flatMap (fun i => masterEdges i ++ baseEdges i) ++ bms.flatMap mappingEdges
        ++ cudns.flatMap cudnEdges ++ cudns.flatMap (fun c2 => (attachmentParts c2).2)).filter
          (fun e => e.source == "cudn-" ++ c.name && e.target == "attachment-" ++ c.name)) = _
    rw [List.filter_append, List.filter_append, List.filter_append,
      iface_edges_filter_nil ifs c.name hni hcn, mapping_edges_filter_nil bms c.name,
      cudn_edges_filter_nil cudns c.name, attach_edges_filter cudns c hmem hnd, hparts]
    simp [addEdge]
  · intro e he hanim
    rcases mem_buildGraph_edges.mp he with ⟨i, _, hm | hb⟩ | ⟨m, _, he2⟩ | ⟨c2, _, he2⟩ | ⟨c2, hc2, he2⟩
    · obtain ⟨m, rfl⟩ := mem_masterEdges hm
      exact absurd hanim (by simp [addEdge])
    · obtain ⟨b, rfl⟩ := mem_baseEdges hb
      exact absurd hanim (by simp [addEdge])
    · obtain ⟨b, rfl⟩ := mem_mappingEdges he2
      exact absurd hanim (by simp [addEdge])
    · obtain ⟨p, rfl⟩ := mem_cudnEdges he2
      exact absurd hanim (by simp [addEdge])
    · rw [mem_attachEdges he2]
      exact ⟨c2, hc2, rfl, rfl⟩

/-- Witness for C6: CUDN `net-a` with condition message
`created [ns-b, ns-a] ok` (Scenario D of the specification). -/
theorem claim_C6_witness :
    (buildGraph [] []
        [{ name := "net-a",
           conditions := [{ type := "NetworkCreated", status := "True",
                            message := some "created [ns-b, ns-a] ok" }] }]).nodes.filter
        (fun n => n.id == "attachment-" ++ "net-a")
      = [{ id := "attachment-" ++ "net-a",
           label := nsLabel (parseNamespaces ("ns-b, ns-a".data)),
           role := "attachment", namespaces := some (parseNamespaces ("ns-b, ns-a".data)) }]
    ∧ List.Sorted (fun a b => strLe a b = true) (parseNamespaces ("ns-b, ns-a".data))
    ∧ (parseNamespaces ("ns-b, ns-a".data)).Perm
        ((splitCommaCh ("ns-b, ns-a".data) []).map (fun l => (trimCh l).asString))
    ∧ nsLabel (parseNamespaces ("ns-b, ns-a".data)) =
        (if (parseNamespaces ("ns-b, ns-a".data)).length > 3
         then "NS: " ++ (String.intercalate ", " ((parseNamespaces ("ns-b, ns-a".data)).take 3) ++ "...")
         else "NS: " ++ String.intercalate ", " (parseNamespaces ("ns-b, ns-a".data)))
    ∧ (buildGraph [] []
        [{ name := "net-a",
           conditions := [{ type := "NetworkCreated", status := "True",
                            message := some "created [ns-b, ns-a] ok" }] }]).edges.filter
        (fun e => e.source == "cudn-" ++ "net-a" && e.target == "attachment-" ++ "net-a")
      = [addEdge ("cudn-" ++ "net-a") ("attachment-" ++ "net-a") true]
    ∧ (addEdge ("cudn-" ++ "net-a") ("attachment-" ++ "net-a") true).animated = true
    ∧ (∀ e ∈ (buildGraph [] []
        [{ name := "net-a",
           conditions := [{ type := "NetworkCreated", status := "True",
                            message := some "created [ns-b, ns-a] ok" }] }]).edges,
        e.animated = true →
        ∃ c2 ∈ [({ name := "net-a",
                   conditions := [{ type := "NetworkCreated", status := "True",
                                    message := some "created [ns-b, ns-a] ok" }] } : Cudn)],
          e.source = "cudn-" ++ c2.name ∧ e.target = "attachment-" ++ c2.name) :=
  claim_C6_thm [] []
    [{ name := "net-a",
       conditions := [{ type := "NetworkCreated", status := "True",
                        message := some "created [ns-b, ns-a] ok" }] }]
    { name := "net-a",
      conditions := [{ type := "NetworkCreated", status := "True",
                       message := some "created [ns-b, ns-a] ok" }] }
    { type := "NetworkCreated", status := "True", message := some "created [ns-b, ns-a] ok" }
    "created [ns-b, ns-a] ok" ("ns-b, ns-a".data)
    (by decide) (by decide) (by decide) (by decide) (by decide) rfl (by decide) (by decide)

/-! ## C7 — malformed or absent condition -/

/-- C7: when the `NetworkCreated`/`True` condition is absent, or its
message is absent/empty or contains no bracket pattern, or the bracketed
list is empty after parsing, no attachment node and no cudn→attachment
edge is created for that CUDN (given distinct CUDN names and no interface
shadowing the synthesized ids); construction is total, so no error is
raised. -/
theorem claim_C7_thm (ifs : List Iface) (bms : List BridgeMapping) (cudns : List Cudn)
    (c : Cudn)
    (hmem : c ∈ cudns)
    (hnd : (cudns.map Cudn.name).Nodup)
    (hni : ∀ i ∈ ifs, i.name ≠ "attachment-" ++ c.name)
    (hcn : ∀ i ∈ ifs, i.name ≠ "cudn-" ++ c.name)
    (hcase :
      c.conditions.find? condPred = none
      ∨ (∃ cond, c.conditions.find? condPred = some cond
          ∧ (cond.message = none ∨ cond.message = some ""))
      ∨ (∃ cond msg, c.conditions.find? condPred = some cond ∧ cond.message = some msg
          ∧ findBracket msg.data = none)
      ∨ (∃ cond msg cap, c.conditions.find? condPred = some cond ∧ cond.message = some msg
          ∧ findBracket msg.data = some cap ∧ (cap = [] ∨ parseNamespaces cap = []))) :
    (buildGraph ifs bms cudns).nodes.filter (fun n => n.id == "attachment-" ++ c.name) = []
    ∧ (buildGraph ifs bms cudns).edges.filter
        (fun e => e.source == "cudn-" ++ c.name && e.target == "attachment-" ++ c.name) = [] := by
  have hparts : attachmentParts c = ([], []) := by
    rcases hcase with h | ⟨cond, hf, hm | hm⟩ | ⟨cond, msg, hf, hm, hb⟩
      | ⟨cond, msg, cap, hf, hm, hb, hcc⟩
    · simp [attachmentParts, h]
    · simp [attachmentParts, hf, hm]
    · simp [attachmentParts, hf, hm]
    · by_cases hmsg : msg = ""
      · simp [attachmentParts, hf, hm, hmsg]
      · simp [attachmentParts, hf, hm, hmsg, hb]
    · rcases hcc with rfl | hpn
      · by_cases hmsg : msg = ""
        · simp [attachmentParts, hf, hm, hmsg]
        · simp [attachmentParts, hf, hm, hmsg, hb]
      · exact absurd hpn (parseNamespaces_ne_nil cap)
  constructor
  · show ((ifs.map (ifaceNode ifs) ++ bms.map mappingNode ++ cudns.map cudnNode
        ++ cudns.flatMap (fun c2 => (attachmentParts c2).1)).filter
          (fun n => n.id == "attachment-" ++ c.name)) = _
    rw [List.filter_append, List.filter_append, List.filter_append,
      iface_nodes_filter_nil ifs _ hni, mapping_nodes_filter_nil bms c.name,
      cudn_nodes_filter_nil cudns c.name, attach_nodes_filter cudns c hmem hnd, hparts]
    simp
  · show ((ifs.flatMap (fun i => masterEdges i ++ baseEdges i) ++ bms.flatMap mappingEdges
        ++ cudns.flatMap cudnEdges ++ cudns.flatMap (fun c2 => (attachmentParts c2).2)).filter
          (fun e => e.source == "cudn-" ++ c.name && e.target == "attachment-" ++ c.name)) = _
    rw [List.filter_append, List.filter_append, List.filter_append,
      iface_edges_filter_nil ifs c.name hni hcn, mapping_edges_filter_nil bms c.name,
      cudn_edges_filter_nil cudns c.name, attach_edges_filter cudns c hmem hnd, hparts]
    simp

/-- Witness for C7: a CUDN with no conditions at all. -/
theorem claim_C7_witness :
    (buildGraph [] [] [{ name := "net-b" }]).nodes.filter
        (fun n => n.id == "attachment-" ++ ({ name := "net-b" } : Cudn).name) = []
    ∧ (buildGraph [] [] [{ name := "net-b" }]).edges.filter
        (fun e => e.source == "cudn-" ++ ({ name := "net-b" } : Cudn).name
          && e.target == "attachment-" ++ ({ name := "net-b" } : Cudn).name) = [] :=
  claim_C7_thm [] [] [{ name := "net-b" }] { name := "net-b" }
    (by decide) (by decide) (by decide) (by decide) (Or.inl rfl)

/-! ## Set and counting lemmas for the traversal -/

theorem mem_setAdd_of_mem {l : List String} {x : String} (y : String) (h : x ∈ l) :
    x ∈ setAdd l y := by
  unfold setAdd
  by_cases hy : y ∈ l
  · rw [if_pos hy]; exact h
  · rw [if_neg hy]; exact List.mem_append_left _ h

theorem mem_setAdd_self (l : List String) (y : String) : y ∈ setAdd l y := by
  unfold setAdd
  by_cases hy : y ∈ l
  · rw [if_pos hy]; exact hy
  · rw [if_neg hy]; exact List.mem_append_right _ (List.mem_singleton.mpr rfl)

theorem mem_setAdd_iff {l : List String} {x y : String} :
    x ∈ setAdd l y ↔ x ∈ l ∨ x = y := by
  unfold setAdd
  by_cases hy : y ∈ l
  · rw [if_pos hy]
    exact ⟨Or.inl, fun h => h.elim id (fun hxy => hxy ▸ hy)⟩
  · rw [if_neg hy]
    simp [List.mem_append]

theorem setAdd_nodup {l : List String} (y : String) (h : l.Nodup) : (setAdd l y).Nodup := by
  unfold setAdd
  by_cases hy : y ∈ l
  · rw [if_pos hy]; exact h
  · rw [if_neg hy]
    simp [List.nodup_append, h, hy]

/-- Number of elements of `V` not yet visited. -/
def remCount (V : List String) (visited : List String) : Nat :=
  (V.filter (fun v => decide (v ∉ visited))).length

theorem remCount_mono {v1 v2 : List String} (h : ∀ x ∈ v1, x ∈ v2) (V : List String) :
    remCount V v2 ≤ remCount V v1 := by
  induction V with
  | nil => exact Nat.le_refl 0
  | cons a V ih =>
    unfold remCount at *
    simp only [List.filter_cons]
    by_cases h2 : a ∈ v2
    · have e2 : decide (a ∉ v2) = false := by simp [h2]
      rw [e2]
      by_cases h1 : a ∈ v1
      · have e1 : decide (a ∉ v1) = false := by simp [h1]
        rw [e1]; exact ih
      · have e1 : decide (a ∉ v1) = true := by simp [h1]
        rw [e1]
        exact Nat.le_succ_of_le ih
    · have h1 : a ∉ v1 := fun hx => h2 (h a hx)
      have e2 : decide (a ∉ v2) = true := by simp [h2]
      have e1 : decide (a ∉ v1) = true := by simp [h1]
      rw [e1, e2]
      simpa using ih

theorem remCount_insert_lt {a : String} {visited : List String} (V : List String)
    (haV : a ∈ V) (hav : a ∉ visited) :
    remCount V (visited ++ [a]) < remCount V visited := by
  induction V with
  | nil => cases haV
  | cons b V ih =>
    unfold remCount at *
    simp only [List.filter_cons]
    by_cases hb1 : b ∈ visited
    · have e1 : decide (b ∉ visited) = false := by simp [hb1]
      have e2 : decide (b ∉ visited ++ [a]) = false := by simp [hb1]
      rw [e1, e2]
      have haV2 : a ∈ V := by
        rcases List.mem_cons.mp haV with rfl | h
        · exact absurd hb1 hav
        · exact h
      exact ih haV2
    · by_cases hb2 : b = a
      · subst hb2
        have e1 : decide (b ∉ visited) = true := by simp [hb1]
        have e2 : decide (b ∉ visited ++ [b]) = false := by simp
        simp only [e1, e2, reduceIte, List.length_cons]
        exact Nat.lt_succ_of_le (remCount_mono (fun x hx => List.mem_append_left _ hx) V)
      · have e1 : decide (b ∉ visited) = true := by simp [hb1]
        have e2 : decide (b ∉ visited ++ [a]) = true := by simp [hb1, hb2]
        simp only [e1, e2, reduceIte, List.length_cons]
        have haV2 : a ∈ V := by
          rcases List.mem_cons.mp haV with rfl | h
          · exact absurd rfl hb2
          · exact h
        exact Nat.succ_lt_succ (ih haV2)

/-- `setAdd` on a fresh element is an append. -/
theorem setAdd_not_mem {l : List String} {y : String} (h : y ∉ l) :
    setAdd l y = l ++ [y] := if_neg h

theorem remCount_setAdd_lt {a : String} {visited : List String} (V : List String)
    (haV : a ∈ V) (hav : a ∉ visited) :
    remCount V (setAdd visited a) < remCount V visited := by
  rw [setAdd_not_mem hav]
  exact remCount_insert_lt V haV hav

/-- The node ids the traversal can ever visit. -/
def touchIds (edges : List GEdge) (x : String) : List String :=
  x :: edges.flatMap (fun e => [e.source, e.target])

theorem touchIds_length (edges : List GEdge) (x : String) :
    (touchIds edges x).length = 2 * edges.length + 1 := by
  induction edges with
  | nil => rfl
  | cons e es ih =>
    simp only [touchIds, List.flatMap_cons, List.length_cons, List.length_append,
      List.length_nil] at ih ⊢
    omega

theorem remCount_nil_eq (V : List String) : remCount V [] = V.length := by
  unfold remCount
  induction V with
  | nil => rfl
  | cons a V ih => simpa using ih

theorem nextNode_mem_touchIds {edges : List GEdge} (up : Bool) (x : String) {e : GEdge}
    (he : e ∈ edges) : nextNode up e ∈ touchIds edges x := by
  apply List.mem_cons_of_mem
  apply List.mem_flatMap.mpr
  refine ⟨e, he, ?_⟩
  unfold nextNode
  by_cases hup : up
  · rw [if_pos hup]; exact List.mem_cons_self _ _
  · rw [if_neg hup]; exact List.mem_cons_of_mem _ (List.mem_singleton.mpr rfl)

/-- Unfolding equations of `traverse`. -/
theorem traverse_zero (edges : List GEdge) (up : Bool) (n : String) (s : TSt) :
    traverse edges up 0 n s = s := rfl

theorem traverse_succ (edges : List GEdge) (up : Bool) (f : Nat) (n : String) (s : TSt) :
    traverse edges up (f + 1) n s =
      if n ∈ s.visited then s
      else
        traverseEdges up (traverse edges up f)
          (edges.filter (fun e => matchEnd up e == n))
          { visited := setAdd s.visited n, path := setAdd s.path n } := rfl

/-! ## Monotonicity of the traversal state -/

theorem traverseEdges_visited_mono (up : Bool) (rec : String → TSt → TSt)
    (hrec : ∀ n s, ∀ x ∈ s.visited, x ∈ (rec n s).visited) :
    ∀ l s, ∀ x ∈ s.visited, x ∈ (traverseEdges up rec l s).visited := by
  intro l
  induction l with
  | nil => intro s x hx; exact hx
  | cons e es ih =>
    intro s x hx
    exact ih _ x (hrec _ _ x hx)

theorem traverse_visited_mono (edges : List GEdge) (up : Bool) :
    ∀ f n s, ∀ x ∈ s.visited, x ∈ (traverse edges up f n s).visited := by
  intro f
  induction f with
  | zero => intro n s x hx; exact hx
  | succ f ih =>
    intro n s x hx
    rw [traverse_succ]
    by_cases hn : n ∈ s.visited
    · rw [if_pos hn]; exact hx
    · rw [if_neg hn]
      exact traverseEdges_visited_mono up _ (fun n2 s2 => ih n2 s2) _ _ x
        (mem_setAdd_of_mem n hx)

theorem traverseEdges_path_mono (up : Bool) (rec : String → TSt → TSt)
    (hrec : ∀ n s, ∀ x ∈ s.path, x ∈ (rec n s).path) :
    ∀ l s, ∀ x ∈ s.path, x ∈ (traverseEdges up rec l s).path := by
  intro l
  induction l with
  | nil => intro s x hx; exact hx
  | cons e es ih =>
    intro s x hx
    exact ih _ x (hrec _ _ x (mem_setAdd_of_mem e.id hx))

theorem traverse_path_mono (edges : List GEdge) (up : Bool) :
    ∀ f n s, ∀ x ∈ s.path, x ∈ (traverse edges up f n s).path := by
  intro f
  induction f with
  | zero => intro n s x hx; exact hx
  | succ f ih =>
    intro n s x hx
    rw [traverse_succ]
    by_cases hn : n ∈ s.visited
    · rw [if_pos hn]; exact hx
    · rw [if_neg hn]
      exact traverseEdges_path_mono up _ (fun n2 s2 => ih n2 s2) _ _ x
        (mem_setAdd_of_mem n hx)

/-! ## Soundness: visited nodes are reachable -/

/-- One traversal step in direction `up`: an edge is matched on `matchEnd`
and continues to `nextNode`. -/
def stepDir (edges : List GEdge) (up : Bool) (a b : String) : Prop :=
  ∃ e ∈ edges, matchEnd up e = a ∧ nextNode up e = b

theorem traverseEdges_visited_sound (edges : List GEdge) (up : Bool)
    (rec : String → TSt → TSt) (root : String)
    (hrec : ∀ n s x, x ∈ (rec n s).visited →
      x ∈ s.visited ∨ Relation.ReflTransGen (stepDir edges up) n x) :
    ∀ l s, (∀ e ∈ l, e ∈ edges ∧ matchEnd up e = root) →
      ∀ x, x ∈ (traverseEdges up rec l s).visited →
        x ∈ s.visited ∨ Relation.ReflTransGen (stepDir edges up) root x := by
  intro l
  induction l with
  | nil => intro s _ x hx; exact Or.inl hx
  | cons e es ih =>
    intro s hl x hx
    have he := hl e (List.mem_cons_self e es)
    rcases ih _ (fun e2 he2 => hl e2 (List.mem_cons_of_mem e he2)) x hx with hx2 | hx2
    · rcases hrec _ _ x hx2 with hx3 | hx3
      · exact Or.inl hx3
      · exact Or.inr (Relation.ReflTransGen.head ⟨e, he.1, he.2, rfl⟩ hx3)
    · exact Or.inr hx2

theorem traverse_visited_sound (edges : List GEdge) (up : Bool) :
    ∀ f n s x, x ∈ (traverse edges up f n s).visited →
      x ∈ s.visited ∨ Relation.ReflTransGen (stepDir edges up) n x := by
  intro f
  induction f with
  | zero => intro n s x hx; exact Or.inl hx
  | succ f ih =>
    intro n s x hx
    rw [traverse_succ] at hx
    by_cases hn : n ∈ s.visited
    · rw [if_pos hn] at hx; exact Or.inl hx
    · rw [if_neg hn] at hx
      have hl : ∀ e ∈ edges.filter (fun e => matchEnd up e == n),
          e ∈ edges ∧ matchEnd up e = n := by
        intro e he
        have h2 := List.mem_filter.mp he
        exact ⟨h2.1, by simpa using h2.2⟩
      rcases traverseEdges_visited_sound edges up _ n
          (fun n2 s2 x2 h2 => ih n2 s2 x2 h2) _ _ hl x hx with h | h
      · rcases mem_setAdd_iff.mp h with h2 | rfl
        · exact Or.inl h2
        · exact Or.inr Relation.ReflTransGen.refl
      · exact Or.inr h

/-! ## Completeness: the visited set is closed under traversal steps -/

/-- The successors of a node in direction `up`. -/
def succsOf (edges : List GEdge) (up : Bool) (v : String) : List String :=
  (edges.filter (fun e => matchEnd up e == v)).map (nextNode up)

theorem traverse_closure (edges : List GEdge) (up : Bool) (V : List String)
    (hV : ∀ e ∈ edges, nextNode up e ∈ V) :
    ∀ f n s, n ∈ V → remCount V s.visited < f →
      n ∈ (traverse edges up f n s).visited
      ∧ (∀ v, v ∈ (traverse edges up f n s).visited → v ∉ s.visited →
          ∀ w ∈ succsOf edges up v, w ∈ (traverse edges up f n s).visited) := by
  intro f
  induction f with
  | zero => intro n s _ h; exact absurd h (Nat.not_lt_zero _)
  | succ f ih =>
    intro n s hnV hrem
    rw [traverse_succ]
    by_cases hn : n ∈ s.visited
    · rw [if_pos hn]
      exact ⟨hn, fun v hv hvn _ _ => absurd hv hvn⟩
    · rw [if_neg hn]
      have hlist : ∀ l s2, (∀ e ∈ l, e ∈ edges) → remCount V s2.visited < f →
          (∀ x ∈ s2.visited, x ∈ (traverseEdges up (traverse edges up f) l s2).visited)
          ∧ (∀ e ∈ l, nextNode up e ∈ (traverseEdges up (traverse edges up f) l s2).visited)
          ∧ (∀ v, v ∈ (traverseEdges up (traverse edges up f) l s2).visited → v ∉ s2.visited →
              ∀ w ∈ succsOf edges up v,
                w ∈ (traverseEdges up (traverse edges up f) l s2).visited) := by
        intro l
        induction l with
        | nil =>
          intro s2 _ _
          exact ⟨fun x hx => hx, by simp, fun v hv hvn _ _ => absurd hv hvn⟩
        | cons e es ihl =>
          intro s2 hle hrem2
          have heq : traverseEdges up (traverse edges up f) (e :: es) s2 =
              traverseEdges up (traverse edges up f) es
                (traverse edges up f (nextNode up e)
                  { s2 with path := setAdd s2.path e.id }) := rfl
          rw [heq]
          have hnV2 : nextNode up e ∈ V := hV e (hle e (List.mem_cons_self e es))
          have haux := ih (nextNode up e) { s2 with path := setAdd s2.path e.id } hnV2 hrem2
          have hm1 : ∀ x ∈ s2.visited,
              x ∈ (traverse edges up f (nextNode up e)
                { s2 with path := setAdd s2.path e.id }).visited :=
            fun x hx => traverse_visited_mono edges up f _ _ x hx
          have hremr1 : remCount V (traverse edges up f (nextNode up e)
              { s2 with path := setAdd s2.path e.id }).visited < f :=
            lt_of_le_of_lt (remCount_mono hm1 V) hrem2
          have hes := ihl
            (traverse edges up f (nextNode up e) { s2 with path := setAdd s2.path e.id })
            (fun e2 he2 => hle e2 (List.mem_cons_of_mem e he2)) hremr1
          refine ⟨?_, ?_, ?_⟩
          · intro x hx
            exact hes.1 x (hm1 x hx)
          · intro e2 he2
            rcases List.mem_cons.mp he2 with rfl | he2b
            · exact hes.1 _ haux.1
            · exact hes.2.1 e2 he2b
          · intro v hv hvn w hw
            by_cases hvr1 : v ∈ (traverse edges up f (nextNode up e)
                { s2 with path := setAdd s2.path e.id }).visited
            · exact hes.1 w (haux.2 v hvr1 hvn w hw)
            · exact hes.2.2 v hv hvr1 w hw
      have hs1 : remCount V (setAdd s.visited n) < f := by
        have h1 := remCount_setAdd_lt V hnV hn
        omega
      have hl := hlist (edges.filter (fun e => matchEnd up e == n))
        { visited := setAdd s.visited n, path := setAdd s.path n }
        (fun e he => (List.mem_filter.mp he).1) hs1
      refine ⟨hl.1 n (mem_setAdd_self _ _), ?_⟩
      intro v hv hvn w hw
      by_cases hveq : v = n
      · subst hveq
        have hw2 : w ∈ (edges.filter (fun e => matchEnd up e == v)).map (nextNode up) := hw
        obtain ⟨e, he, rfl⟩ := List.mem_map.mp hw2
        exact hl.2.1 e he
      · have hvn2 : v ∉ setAdd s.visited n := fun hmem =>
          (mem_setAdd_iff.mp hmem).elim hvn hveq
        exact hl.2.2 v hv hvn2 w hw

/-- The visited set of a full-fuel traversal from `x` (over an empty
initial visited set) is exactly the set of nodes reachable from `x`
in direction `up`. -/
theorem traverse_visited_iff (edges : List GEdge) (up : Bool) (x y : String)
    (p0 : List String) :
    y ∈ (traverse edges up (graphFuel edges) x ⟨[], p0⟩).visited ↔
      Relation.ReflTransGen (stepDir edges up) x y := by
  constructor
  · intro h
    rcases traverse_visited_sound edges up (graphFuel edges) x ⟨[], p0⟩ y h with h2 | h2
    · exact absurd h2 (List.not_mem_nil y)
    · exact h2
  · intro h
    have hV : ∀ e ∈ edges, nextNode up e ∈ touchIds edges x :=
      fun e he => nextNode_mem_touchIds up x he
    have hrem : remCount (touchIds edges x) ([] : List String) < graphFuel edges := by
      rw [remCount_nil_eq, touchIds_length]
      unfold graphFuel
      omega
    have hcl := traverse_closure edges up (touchIds edges x) hV (graphFuel edges) x ⟨[], p0⟩
      (List.mem_cons_self _ _) hrem
    induction h with
    | refl => exact hcl.1
    | tail h1 h2 ih =>
      obtain ⟨e, he, hme, hnx⟩ := h2
      refine hcl.2 _ ih (List.not_mem_nil _) _ ?_
      subst hnx
      subst hme
      show nextNode up e ∈ (edges.filter (fun e2 => matchEnd up e2 == matchEnd up e)).map (nextNode up)
      exact List.mem_map_of_mem _ (List.mem_filter.mpr ⟨he, by simp⟩)

/-! ## Path membership characterisation -/

theorem interval_or {P0 P1 P2 : Prop} (h01 : P0 → P1) (h12 : P1 → P2) :
    ((P1 ∧ ¬P0) ∨ (P2 ∧ ¬P1)) ↔ (P2 ∧ ¬P0) := by
  constructor
  · rintro (⟨h1, h0⟩ | ⟨h2, h1n⟩)
    · exact ⟨h12 h1, h0⟩
    · exact ⟨h2, fun h0 => h1n (h01 h0)⟩
  · rintro ⟨h2, h0⟩
    by_cases h1 : P1
    · exact Or.inl ⟨h1, h0⟩
    · exact Or.inr ⟨h2, h1⟩

theorem traverseEdges_path_delta (edges : List GEdge) (up : Bool)
    (rec : String → TSt → TSt)
    (hrecMono : ∀ n s, ∀ z ∈ s.visited, z ∈ (rec n s).visited)
    (hrecDelta : ∀ n s x, x ∈ (rec n s).path ↔
      x ∈ s.path ∨ (x ∈ (rec n s).visited ∧ x ∉ s.visited)
      ∨ ∃ e ∈ edges, x = e.id ∧ matchEnd up e ∈ (rec n s).visited
          ∧ matchEnd up e ∉ s.visited) :
    ∀ l s x, x ∈ (traverseEdges up rec l s).path ↔
      x ∈ s.path ∨ (∃ e ∈ l, x = e.id)
      ∨ (x ∈ (traverseEdges up rec l s).visited ∧ x ∉ s.visited)
      ∨ ∃ e ∈ edges, x = e.id ∧ matchEnd up e ∈ (traverseEdges up rec l s).visited
          ∧ matchEnd up e ∉ s.visited := by
  intro l
  induction l with
  | nil =>
    intro s x
    simp only [traverseEdges]
    constructor
    · intro hx; exact Or.inl hx
    · rintro (hx | ⟨e, he, _⟩ | ⟨h1, h2⟩ | ⟨e, _, _, h1, h2⟩)
      · exact hx
      · exact absurd he (List.not_mem_nil e)
      · exact absurd h1 h2
      · exact absurd h1 h2
  | cons e es ih =>
    intro s x
    have heq : traverseEdges up rec (e :: es) s =
        traverseEdges up rec es (rec (nextNode up e) { s with path := setAdd s.path e.id }) := rfl
    rw [heq]
    have hmono1 : ∀ z ∈ s.visited,
        z ∈ (rec (nextNode up e) { s with path := setAdd s.path e.id }).visited :=
      fun z hz => hrecMono _ _ z hz
    have hmono2 : ∀ z ∈ (rec (nextNode up e) { s with path := setAdd s.path e.id }).visited,
        z ∈ (traverseEdges up rec es
          (rec (nextNode up e) { s with path := setAdd s.path e.id })).visited :=
      fun z hz => traverseEdges_visited_mono up rec hrecMono es _ z hz
    constructor
    · intro hx
      rcases (ih _ x).mp hx with hx2 | ⟨e2, he2, hid⟩ | ⟨h1, h2⟩ | ⟨e2, he2, hid, h1, h2⟩
      · -- x in the path of the rec call
        rcases (hrecDelta _ _ x).mp hx2 with hx3 | ⟨h1, h2⟩ | ⟨e2, he2, hid, h1, h2⟩
        · rcases mem_setAdd_iff.mp hx3 with hx4 | rfl
          · exact Or.inl hx4
          · exact Or.inr (Or.inl ⟨e, List.mem_cons_self e es, rfl⟩)
        · exact Or.inr (Or.inr (Or.inl ⟨hmono2 x h1, h2⟩))
        · exact Or.inr (Or.inr (Or.inr ⟨e2, he2, hid, hmono2 _ h1, h2⟩))
      · exact Or.inr (Or.inl ⟨e2, List.mem_cons_of_mem e he2, hid⟩)
      · refine Or.inr (Or.inr (Or.inl ⟨h1, fun hx3 => h2 (hmono1 x hx3)⟩))
      · exact Or.inr (Or.inr (Or.inr ⟨e2, he2, hid, h1,
          fun hx3 => h2 (hmono1 _ hx3)⟩))
    · rintro (hx | ⟨e2, he2, rfl⟩ | ⟨h1, h2⟩ | ⟨e2, he2, rfl, h1, h2⟩)
      · refine (ih _ x).mpr (Or.inl ?_)
        exact (hrecDelta _ _ x).mpr (Or.inl (mem_setAdd_of_mem _ hx))
      · rcases List.mem_cons.mp he2 with rfl | he2b
        · refine (ih _ e2.id).mpr (Or.inl ?_)
          exact (hrecDelta _ _ e2.id).mpr (Or.inl (mem_setAdd_self _ _))
        · exact (ih _ e2.id).mpr (Or.inr (Or.inl ⟨e2, he2b, rfl⟩))
      · by_cases hr1 : x ∈ (rec (nextNode up e) { s with path := setAdd s.path e.id }).visited
        · refine (ih _ x).mpr (Or.inl ?_)
          exact (hrecDelta _ _ x).mpr (Or.inr (Or.inl ⟨hr1, h2⟩))
        · exact (ih _ x).mpr (Or.inr (Or.inr (Or.inl ⟨h1, hr1⟩)))
      · by_cases hr1 : matchEnd up e2
            ∈ (rec (nextNode up e) { s with path := setAdd s.path e.id }).visited
        · refine (ih _ e2.id).mpr (Or.inl ?_)
          exact (hrecDelta _ _ e2.id).mpr (Or.inr (Or.inr ⟨e2, he2, rfl, hr1, h2⟩))
        · exact (ih _ e2.id).mpr (Or.inr (Or.inr (Or.inr ⟨e2, he2, rfl, h1, hr1⟩)))

theorem traverse_path_delta (edges : List GEdge) (up : Bool) :
    ∀ f n s x, x ∈ (traverse edges up f n s).path ↔
      x ∈ s.path ∨ (x ∈ (traverse edges up f n s).visited ∧ x ∉ s.visited)
      ∨ ∃ e ∈ edges, x = e.id ∧ matchEnd up e ∈ (traverse edges up f n s).visited
          ∧ matchEnd up e ∉ s.visited := by
  intro f
  induction f with
  | zero =>
    intro n s x
    rw [traverse_zero]
    constructor
    · exact Or.inl
    · rintro (h | ⟨h1, h2⟩ | ⟨e, _, _, h1, h2⟩)
      · exact h
      · exact absurd h1 h2
      · exact absurd h1 h2
  | succ f ih =>
    intro n s x
    rw [traverse_succ]
    by_cases hn : n ∈ s.visited
    · rw [if_pos hn]
      constructor
      · exact Or.inl
      · rintro (h | ⟨h1, h2⟩ | ⟨e, _, _, h1, h2⟩)
        · exact h
        · exact absurd h1 h2
        · exact absurd h1 h2
    · rw [if_neg hn]
      have hld := traverseEdges_path_delta edges up (traverse edges up f)
        (fun n2 s2 => traverse_visited_mono edges up f n2 s2)
        (fun n2 s2 x2 => ih n2 s2 x2)
        (edges.filter (fun e => matchEnd up e == n))
        { visited := setAdd s.visited n, path := setAdd s.path n } x
      have hmono_r : ∀ z, z ∈ setAdd s.visited n →
          z ∈ (traverseEdges up (traverse edges up f)
            (edges.filter (fun e => matchEnd up e == n))
            { visited := setAdd s.visited n, path := setAdd s.path n }).visited :=
        fun z hz => traverseEdges_visited_mono up _
          (fun n2 s2 => traverse_visited_mono edges up f n2 s2) _ _ z hz
      rw [hld]
      constructor
      · rintro (hx | ⟨e2, he2, hid⟩ | ⟨h1, h2⟩ | ⟨e2, he2, hid, h1, h2⟩)
        · rcases mem_setAdd_iff.mp hx with hx2 | rfl
          · exact Or.inl hx2
          · exact Or.inr (Or.inl ⟨hmono_r _ (mem_setAdd_self _ _), hn⟩)
        · have hf := List.mem_filter.mp he2
          have hme : matchEnd up e2 = n := by simpa using hf.2
          refine Or.inr (Or.inr ⟨e2, hf.1, hid, ?_, ?_⟩)
          · rw [hme]; exact hmono_r _ (mem_setAdd_self _ _)
          · rw [hme]; exact hn
        · exact Or.inr (Or.inl ⟨h1, fun hx2 => h2 (mem_setAdd_of_mem n hx2)⟩)
        · exact Or.inr (Or.inr ⟨e2, he2, hid, h1, fun hx2 => h2 (mem_setAdd_of_mem n hx2)⟩)
      · rintro (hx | ⟨h1, h2⟩ | ⟨e2, he2, hid, h1, h2⟩)
        · exact Or.inl (mem_setAdd_of_mem n hx)
        · by_cases hxn : x = n
          · subst hxn
            exact Or.inl (mem_setAdd_self _ _)
          · refine Or.inr (Or.inr (Or.inl ⟨h1, fun hx2 => ?_⟩))
            exact (mem_setAdd_iff.mp hx2).elim h2 hxn
        · by_cases hme : matchEnd up e2 = n
          · refine Or.inr (Or.inl ⟨e2, List.mem_filter.mpr ⟨he2, by simp [hme]⟩, hid⟩)
          · refine Or.inr (Or.inr (Or.inr ⟨e2, he2, hid, h1, fun hx2 => ?_⟩))
            exact (mem_setAdd_iff.mp hx2).elim h2 hme

/-! ## From traversal steps to directed paths -/

theorem rtg_flip {α : Type} {r : α → α → Prop} {a b : α}
    (h : Relation.ReflTransGen r a b) :
    Relation.ReflTransGen (fun x y => r y x) b a := by
  induction h with
  | refl => exact Relation.ReflTransGen.refl
  | tail h1 h2 ih => exact Relation.ReflTransGen.head h2 ih

theorem rtg_down_iff (edges : List GEdge) (x y : String) :
    Relation.ReflTransGen (stepDir edges false) x y ↔ Reaches edges x y := by
  constructor
  · intro h
    refine Relation.ReflTransGen.mono ?_ h
    rintro a b ⟨e, he, h1, h2⟩
    exact ⟨e, he, h1, h2⟩
  · intro h
    refine Relation.ReflTransGen.mono ?_ h
    rintro a b ⟨e, he, h1, h2⟩
    exact ⟨e, he, h1, h2⟩

theorem rtg_up_iff (edges : List GEdge) (x y : String) :
    Relation.ReflTransGen (stepDir edges true) x y ↔ Reaches edges y x := by
  constructor
  · intro h
    refine Relation.ReflTransGen.mono ?_ (rtg_flip h)
    rintro a b ⟨e, he, h1, h2⟩
    exact ⟨e, he, h2, h1⟩
  · intro h
    refine Relation.ReflTransGen.mono ?_ (rtg_flip h)
    rintro a b ⟨e, he, h1, h2⟩
    exact ⟨e, he, h2, h1⟩

/-- Full characterisation of the highlight set: a string is in the result
iff it is a node reachable from the start (in either direction), or the id
of an edge whose matched endpoint was reached in the corresponding phase. -/
theorem getFlowPath_mem_iff (edges : List GEdge) (x y : String) :
    y ∈ getFlowPath edges x ↔
      Relation.ReflTransGen (stepDir edges true) x y
      ∨ Relation.ReflTransGen (stepDir edges false) x y
      ∨ (∃ e ∈ edges, y = e.id ∧ Relation.ReflTransGen (stepDir edges true) x e.target)
      ∨ (∃ e ∈ edges, y = e.id ∧ Relation.ReflTransGen (stepDir edges false) x e.source) := by
  have h1 := traverse_path_delta edges true (graphFuel edges) x ⟨[], []⟩ y
  have h2 := traverse_path_delta edges false (graphFuel edges) x
    ⟨[], (traverse edges true (graphFuel edges) x ⟨[], []⟩).path⟩ y
  constructor
  · intro hy
    rcases h2.mp hy with hyp1 | ⟨hv2, _⟩ | ⟨e, he, hid, hv2, _⟩
    · rcases h1.mp hyp1 with hnil | ⟨hv1, _⟩ | ⟨e, he, hid, hv1, _⟩
      · exact absurd hnil (List.not_mem_nil y)
      · exact Or.inl ((traverse_visited_iff edges true x y []).mp hv1)
      · exact Or.inr (Or.inr (Or.inl ⟨e, he, hid,
          (traverse_visited_iff edges true x e.target []).mp hv1⟩))
    · exact Or.inr (Or.inl ((traverse_visited_iff edges false x y _).mp hv2))
    · exact Or.inr (Or.inr (Or.inr ⟨e, he, hid,
        (traverse_visited_iff edges false x e.source _).mp hv2⟩))
  · rintro (h | h | ⟨e, he, hid, h⟩ | ⟨e, he, hid, h⟩)
    · exact h2.mpr (Or.inl (h1.mpr (Or.inr (Or.inl
        ⟨(traverse_visited_iff edges true x y []).mpr h, List.not_mem_nil y⟩))))
    · exact h2.mpr (Or.inr (Or.inl
        ⟨(traverse_visited_iff edges false x y _).mpr h, List.not_mem_nil y⟩))
    · exact h2.mpr (Or.inl (h1.mpr (Or.inr (Or.inr
        ⟨e, he, hid, (traverse_visited_iff edges true x e.target []).mpr h,
          List.not_mem_nil _⟩))))
    · exact h2.mpr (Or.inr (Or.inr
        ⟨e, he, hid, (traverse_visited_iff edges false x e.source _).mpr h,
          List.not_mem_nil _⟩))

/-- The same characterisation phrased with directed paths of the graph. -/
theorem getFlowPath_spec (edges : List GEdge) (x y : String) :
    y ∈ getFlowPath edges x ↔
      Reaches edges y x ∨ Reaches edges x y
      ∨ (∃ e ∈ edges, y = e.id ∧ Reaches edges e.target x)
      ∨ (∃ e ∈ edges, y = e.id ∧ Reaches edges x e.source) := by
  rw [getFlowPath_mem_iff]
  refine or_congr (rtg_up_iff edges x y) (or_congr (rtg_down_iff edges x y)
    (or_congr ?_ ?_))
  · exact exists_congr fun e => and_congr Iff.rfl
      (and_congr Iff.rfl (rtg_up_iff edges x e.target))
  · exact exists_congr fun e => and_congr Iff.rfl
      (and_congr Iff.rfl (rtg_down_iff edges x e.source))

/-! ## Fuel irrelevance (termination) and the visited sets are duplicate-free -/

theorem traverse_fuel_succ_eq (edges : List GEdge) (up : Bool) (V : List String)
    (hV : ∀ e ∈ edges, nextNode up e ∈ V) :
    ∀ f n s, n ∈ V → remCount V s.visited < f →
      traverse edges up (f + 1) n s = traverse edges up f n s := by
  intro f
  induction f with
  | zero => intro n s _ h; exact absurd h (Nat.not_lt_zero _)
  | succ f ih =>
    intro n s hnV hrem
    rw [traverse_succ edges up (f + 1) n s, traverse_succ edges up f n s]
    by_cases hn : n ∈ s.visited
    · rw [if_pos hn, if_pos hn]
    · rw [if_neg hn, if_neg hn]
      have hlist : ∀ l s2, (∀ e ∈ l, e ∈ edges) → remCount V s2.visited < f →
          traverseEdges up (traverse edges up (f + 1)) l s2
            = traverseEdges up (traverse edges up f) l s2 := by
        intro l
        induction l with
        | nil => intro s2 _ _; rfl
        | cons e es ihl =>
          intro s2 hle hrem2
          have heq1 : traverseEdges up (traverse edges up (f + 1)) (e :: es) s2 =
              traverseEdges up (traverse edges up (f + 1)) es
                (traverse edges up (f + 1) (nextNode up e)
                  { s2 with path := setAdd s2.path e.id }) := rfl
          have heq2 : traverseEdges up (traverse edges up f) (e :: es) s2 =
              traverseEdges up (traverse edges up f) es
                (traverse edges up f (nextNode up e)
                  { s2 with path := setAdd s2.path e.id }) := rfl
          rw [heq1, heq2]
          have hstep := ih (nextNode up e) { s2 with path := setAdd s2.path e.id }
            (hV e (hle e (List.mem_cons_self e es))) hrem2
          rw [hstep]
          have hremr : remCount V (traverse edges up f (nextNode up e)
              { s2 with path := setAdd s2.path e.id }).visited < f :=
            lt_of_le_of_lt (remCount_mono
              (fun z hz => traverse_visited_mono edges up f _ _ z hz) V) hrem2
          exact ihl _ (fun e2 he2 => hle e2 (List.mem_cons_of_mem e he2)) hremr
      have hs1 : remCount V (setAdd s.visited n) < f := by
        have := remCount_setAdd_lt V hnV hn
        omega
      exact hlist _ _ (fun e he => (List.mem_filter.mp he).1) hs1

theorem traverse_fuel_add (edges : List GEdge) (up : Bool) (V : List String)
    (hV : ∀ e ∈ edges, nextNode up e ∈ V) (F : Nat) :
    ∀ d n s, n ∈ V → remCount V s.visited < F →
      traverse edges up (F + d) n s = traverse edges up F n s := by
  intro d
  induction d with
  | zero => intro n s _ _; rfl
  | succ d ih =>
    intro n s hnV hrem
    show traverse edges up (F + d + 1) n s = traverse edges up F n s
    have h1 : traverse edges up (F + d + 1) n s = traverse edges up (F + d) n s :=
      traverse_fuel_succ_eq edges up V hV (F + d) n s hnV
        (lt_of_lt_of_le hrem (Nat.le_add_right F d))
    rw [h1]
    exact ih n s hnV hrem

theorem traverseEdges_visited_nodup (up : Bool) (rec : String → TSt → TSt)
    (hrec : ∀ n s, s.visited.Nodup → (rec n s).visited.Nodup) :
    ∀ l s, s.visited.Nodup → (traverseEdges up rec l s).visited.Nodup := by
  intro l
  induction l with
  | nil => intro s h; exact h
  | cons e es ih =>
    intro s h
    exact ih _ (hrec _ _ h)

theorem traverse_visited_nodup (edges : List GEdge) (up : Bool) :
    ∀ f n s, s.visited.Nodup → (traverse edges up f n s).visited.Nodup := by
  intro f
  induction f with
  | zero => intro n s h; exact h
  | succ f ih =>
    intro n s h
    rw [traverse_succ]
    by_cases hn : n ∈ s.visited
    · rw [if_pos hn]; exact h
    · rw [if_neg hn]
      exact traverseEdges_visited_nodup up _ (fun n2 s2 h2 => ih n2 s2 h2) _ _
        (setAdd_nodup n h)

/-! ## C3 — highlight membership vs. directed paths -/

theorem reaches_invariant {edges : List GEdge} {a b : String}
    (h : Reaches edges a b) (P : String → Prop) (ha : P a)
    (hstep : ∀ u v, P u → stepTo edges u v → P v) : P b := by
  induction h with
  | refl => exact ha
  | tail h1 h2 ih => exact hstep _ _ ih h2

/-- C3 (counterexample): with interfaces `br` (controller `ex`), `ex` and
`br-ex`, the single edge `br → ex` has id `br-ex`, which is also a node
id; highlighting `br` puts the string `br-ex` into the result set although
there is no directed path between `br` and the node `br-ex` in either
direction. -/
theorem claim_C3_counterexample :
    "br-ex" ∈ getFlowPath (buildGraph
        [{ name := "br", type := "ethernet", controller := some "ex" },
         { name := "ex", type := "ethernet" },
         { name := "br-ex", type := "ethernet" }] [] []).edges "br"
    ∧ "br-ex" ∈ (buildGraph
        [{ name := "br", type := "ethernet", controller := some "ex" },
         { name := "ex", type := "ethernet" },
         { name := "br-ex", type := "ethernet" }] [] []).nodes.map GNode.id
    ∧ ¬ Reaches (buildGraph
        [{ name := "br", type := "ethernet", controller := some "ex" },
         { name := "ex", type := "ethernet" },
         { name := "br-ex", type := "ethernet" }] [] []).edges "br" "br-ex"
    ∧ ¬ Reaches (buildGraph
        [{ name := "br", type := "ethernet", controller := some "ex" },
         { name := "ex", type := "ethernet" },
         { name := "br-ex", type := "ethernet" }] [] []).edges "br-ex" "br" := by
  have hE : (buildGraph
      [{ name := "br", type := "ethernet", controller := some "ex" },
       { name := "ex", type := "ethernet" },
       { name := "br-ex", type := "ethernet" }] [] []).edges
      = [addEdge "br" "ex" false] := by decide
  refine ⟨by decide, by decide, ?_, ?_⟩
  · intro h
    have hP := reaches_invariant h (fun u => u ∈ (["br", "ex"] : List String))
      (by decide) ?_
    · exact absurd hP (by decide)
    · intro u v hu hst
      obtain ⟨e, he, hs, ht⟩ := hst
      rw [hE] at he
      rw [List.mem_singleton.mp he] at ht
      rw [← ht]
      decide
  · intro h
    have hP := reaches_invariant h (fun u => u ∈ (["br-ex"] : List String))
      (by decide) ?_
    · exact absurd hP (by decide)
    · intro u v hu hst
      obtain ⟨e, he, hs, ht⟩ := hst
      rw [hE] at he
      rw [List.mem_singleton.mp he] at hs
      rw [List.mem_singleton.mp hu] at hs
      exact absurd hs (by decide)

/-- C3 (amended): for every string `y` that is not the id of any edge of
the graph — in particular every node id that does not collide with an
edge id `<source>-<target>` — the highlight result contains `y` iff there
is a directed path from the start `x` to `y` or from `y` to `x`. -/
theorem claim_C3_amended_thm (edges : List GEdge) (x y : String)
    (hy : ∀ e ∈ edges, y ≠ e.id) :
    y ∈ getFlowPath edges x ↔ Reaches edges x y ∨ Reaches edges y x := by
  rw [getFlowPath_spec]
  constructor
  · rintro (h | h | ⟨e, he, hid, _⟩ | ⟨e, he, hid, _⟩)
    · exact Or.inr h
    · exact Or.inl h
    · exact absurd hid (hy e he)
    · exact absurd hid (hy e he)
  · rintro (h | h)
    · exact Or.inr (Or.inl h)
    · exact Or.inl h

/-- Witness for C3 (amended): Scenario A's edge `eth0 → br0`. -/
theorem claim_C3_witness :
    (∀ e ∈ ([addEdge "eth0" "br0" false] : List GEdge), "br0" ≠ e.id)
    ∧ ("br0" ∈ getFlowPath [addEdge "eth0" "br0" false] "eth0" ↔
        Reaches [addEdge "eth0" "br0" false] "eth0" "br0"
        ∨ Reaches [addEdge "eth0" "br0" false] "br0" "eth0") :=
  ⟨by decide, claim_C3_amended_thm [addEdge "eth0" "br0" false] "eth0" "br0" (by decide)⟩

/-! ## C5 — start id matching nothing -/

/-- C5 (counterexample): on the empty graph the highlighter does not
return an empty set for an unknown start id — the start id itself is
always added to the result. -/
theorem claim_C5_counterexample :
    getFlowPath (buildGraph [] [] []).edges "ghost" ≠ []
    ∧ getFlowPath (buildGraph [] [] []).edges "ghost" = ["ghost"] := by
  constructor
  · decide
  · decide

/-- C5 (amended): the lookup never fails; when no edge of the graph is
incident on the start id (in particular when the id names no node and
dangling edges do not mention it), the result is exactly the singleton
containing the start id — so no node or edge of the graph is
highlighted, though the returned set is not empty. -/
theorem claim_C5_amended_thm (edges : List GEdge) (x : String)
    (h : ∀ e ∈ edges, e.source ≠ x ∧ e.target ≠ x) :
    getFlowPath edges x = [x] := by
  have hfilt : ∀ up : Bool, edges.filter (fun e => matchEnd up e == x) = [] := by
    intro up
    apply List.filter_eq_nil_iff.mpr
    intro e he
    rcases h e he with ⟨h1, h2⟩
    cases up
    · simpa [matchEnd] using h1
    · simpa [matchEnd] using h2
  obtain ⟨k, hk⟩ : ∃ k, graphFuel edges = k + 1 := ⟨2 * edges.length + 1, rfl⟩
  have h0 : setAdd ([] : List String) x = [x] := by simp [setAdd]
  have hphase : ∀ (up : Bool) (p0 : List String),
      traverse edges up (graphFuel edges) x ⟨[], p0⟩ = ⟨[x], setAdd p0 x⟩ := by
    intro up p0
    rw [hk, traverse_succ, if_neg (List.not_mem_nil x), hfilt up]
    show TSt.mk (setAdd [] x) (setAdd p0 x) = ⟨[x], setAdd p0 x⟩
    rw [h0]
  have hgf : getFlowPath edges x = (traverse edges false (graphFuel edges) x
      ⟨[], (traverse edges true (graphFuel edges) x ⟨[], []⟩).path⟩).path := rfl
  rw [hgf, hphase true []]
  show (traverse edges false (graphFuel edges) x ⟨[], setAdd [] x⟩).path = [x]
  rw [h0, hphase false [x]]
  show setAdd [x] x = [x]
  simp [setAdd]

/-- Witness for C5 (amended): an edge `a → b` and the start id `zzz`. -/
theorem claim_C5_witness :
    getFlowPath [addEdge "a" "b" false] "zzz" = ["zzz"] :=
  claim_C5_amended_thm [addEdge "a" "b" false] "zzz" (by decide)

/-! ## C8 — termination, duplicate-free visiting, independent directions -/

/-- C8: the traversal needs no more recursion depth than `graphFuel` (any
larger bound computes the same result — the recursion terminates, also on
cyclic graphs), each direction's visited set holds every node id at most
once, and the downstream traversal is unaffected by the upstream one:
every node reachable downstream is in the result even if it was already
visited upstream. -/
theorem claim_C8_thm (edges : List GEdge) (x : String) :
    (∀ f, graphFuel edges ≤ f → getFlowPathWith edges f x = getFlowPath edges x)
    ∧ (traverse edges true (graphFuel edges) x ⟨[], []⟩).visited.Nodup
    ∧ (traverse edges false (graphFuel edges) x
        ⟨[], (traverse edges true (graphFuel edges) x ⟨[], []⟩).path⟩).visited.Nodup
    ∧ (∀ y, Reaches edges x y → y ∈ getFlowPath edges x) := by
  refine ⟨?_,
    traverse_visited_nodup edges true (graphFuel edges) x ⟨[], []⟩ List.nodup_nil,
    traverse_visited_nodup edges false (graphFuel edges) x _ List.nodup_nil, ?_⟩
  · intro f hf
    obtain ⟨d, rfl⟩ : ∃ d, f = graphFuel edges + d := ⟨f - graphFuel edges, by omega⟩
    have hrem : remCount (touchIds edges x) ([] : List String) < graphFuel edges := by
      rw [remCount_nil_eq, touchIds_length]
      unfold graphFuel
      omega
    have h1 := traverse_fuel_add edges true (touchIds edges x)
      (fun e he => nextNode_mem_touchIds true x he) (graphFuel edges) d x ⟨[], []⟩
      (List.mem_cons_self _ _) hrem
    have h2 := traverse_fuel_add edges false (touchIds edges x)
      (fun e he => nextNode_mem_touchIds false x he) (graphFuel edges) d x
      ⟨[], (traverse edges true (graphFuel edges) x ⟨[], []⟩).path⟩
      (List.mem_cons_self _ _) hrem
    show (traverse edges false (graphFuel edges + d) x
        ⟨[], (traverse edges true (graphFuel edges + d) x ⟨[], []⟩).path⟩).path = _
    rw [h1, h2]
    rfl
  · intro y hy
    exact (getFlowPath_spec edges x y).mpr (Or.inr (Or.inl hy))

/-- Witness for C8 on the one-edge graph `a → b` (the fuel bound is
discharged at `graphFuel + 1`). -/
theorem claim_C8_witness :
    getFlowPathWith [addEdge "a" "b" false] (graphFuel [addEdge "a" "b" false] + 1) "a"
      = getFlowPath [addEdge "a" "b" false] "a"
    ∧ (traverse [addEdge "a" "b" false] true (graphFuel [addEdge "a" "b" false])
        "a" ⟨[], []⟩).visited.Nodup
    ∧ "b" ∈ getFlowPath [addEdge "a" "b" false] "a" :=
  ⟨(claim_C8_thm [addEdge "a" "b" false] "a").1 _ (Nat.le_succ _),
   (claim_C8_thm [addEdge "a" "b" false] "a").2.1,
   (claim_C8_thm [addEdge "a" "b" false] "a").2.2.2 "b"
     (Relation.ReflTransGen.single
       ⟨addEdge "a" "b" false, List.mem_singleton.mpr rfl, rfl, rfl⟩)⟩
